import Mathlib

/-!
# PathFinder: the grid search engine of `src/main.cpp`

A shallow embedding of `findPath`, `reconstructPath`, `heuristic`, `Node` and
`CompareNode`, followed by theorems about the paths that `findPath` returns.

Modelling decisions.

* `int` values are mathematical integers (`Int`). From an in-bounds start every cell
  the search touches has coordinates between `-1` and `15` and every cost is at most
  `GRID_WIDTH * GRID_HEIGHT`, so 32-bit arithmetic agrees with `Int` as long as the
  coordinates of `endPos` are below `2^30` in absolute value (the heuristic subtracts
  them); beyond that the source has signed overflow, which is undefined.
* The globals `grid`, `startPos`, `endPos` and `useAStar` are explicit parameters.
* A `Node*` is either `nullptr` or the address of a node that is never modified after
  its construction, so it is embedded as `Option Node`, the node carrying its parent.
* `std::priority_queue` is taken through its contract only (`PriorityQueue`): which of
  several entries of equal `totalCost` comes out first is left to the implementation.
  Theorems are stated for every implementation of that contract.
* `operator[]` outside the size of a vector is undefined behaviour in the source; the
  embedding reports it as `Outcome.outOfRange`.
* The `while` loop is run with a fuel counter; `findPath` supplies more fuel than the
  loop can consume and the theorems show that `Outcome.outOfFuel` never comes out.
* `SearchState` carries three observation logs (`allocated`, `expanded`, `gridReads`)
  that do not influence the search.
-/

namespace PathFinder

/-! ## Constants and data model -/

/-- Source constant `const int GRID_WIDTH = 15;`. -/
def GRID_WIDTH : Int := 15

/-- Source constant `const int GRID_HEIGHT = 15;`. -/
def GRID_HEIGHT : Int := 15

/-- The type `sf::Vector2i`: a pair of `int` coordinates, `x` the column and `y` the row. -/
structure Vector2i where
  x : Int
  y : Int
deriving DecidableEq, Repr

/-- The type of `std::vector<std::vector<int>> grid`: rows of cells, `0` free, anything else blocked. -/
abbrev Grid := List (List Int)

/-- The record `struct Node`: position, accumulated cost, heuristic value and parent pointer. -/
inductive Node where
  | mk (pos : Vector2i) (cost : Int) (heuristic : Int) (parent : Option Node) : Node

/-- Field `pos` of a node. -/
def Node.pos : Node → Vector2i
  | .mk p _ _ _ => p

/-- Field `cost` of a node. -/
def Node.cost : Node → Int
  | .mk _ c _ _ => c

/-- Field `heuristic` of a node. -/
def Node.heuristic : Node → Int
  | .mk _ _ h _ => h

/-- Field `parent` of a node (`none` is `nullptr`). -/
def Node.parent : Node → Option Node
  | .mk _ _ _ par => par

/-- Method `int totalCost() const`, returning `cost + heuristic`. -/
def Node.totalCost (n : Node) : Int := n.cost + n.heuristic

/-- The comparator `CompareNode::operator()`: `a->totalCost() > b->totalCost()`. -/
def CompareNode (a b : Node) : Bool := decide (a.totalCost > b.totalCost)

/-- The cells from a node up to the root of its parent chain, the node first. -/
def Node.chain : Node → List Vector2i
  | .mk pos _ _ none => [pos]
  | .mk pos _ _ (some p) => pos :: p.chain

/-- The `while (node)` loop of `reconstructPath`: the positions pushed back, the given
node first and the root last; nothing for `nullptr`. -/
def chainToRoot : Option Node → List Vector2i
  | none => []
  | some n => n.chain

/-- Function `reconstructPath`: walk the parent pointers, then `std::reverse`. -/
def reconstructPath (node : Option Node) : List Vector2i :=
  (chainToRoot node).reverse

/-- Function `heuristic`: `std::abs(a.x - b.x) + std::abs(a.y - b.y)`. -/
def heuristic (a b : Vector2i) : Int :=
  ((a.x - b.x).natAbs : Int) + ((a.y - b.y).natAbs : Int)

/-! ## Vector access -/

/-- The element `m[p.y][p.x]`, or `none` when an index lies outside its vector. -/
def readAt {α : Type} (m : List (List α)) (p : Vector2i) : Option α :=
  if 0 ≤ p.y ∧ 0 ≤ p.x then
    match m[p.y.toNat]? with
    | none => none
    | some row => row[p.x.toNat]?
  else none

/-- The assignment `m[p.y][p.x] = v`. -/
def writeAt {α : Type} (m : List (List α)) (p : Vector2i) (v : α) : List (List α) :=
  match m[p.y.toNat]? with
  | none => m
  | some row => m.set p.y.toNat (row.set p.x.toNat v)

/-! ## The priority queue -/

/-- The contract of `std::priority_queue<Node*, std::vector<Node*>, CompareNode>`.
The queue content is a list; `push` adds one entry, `pop` (the pair `top()`, `pop()`)
removes an entry that `CompareNode` ranks below no other entry, that is, one of least
`totalCost`. Nothing else is promised about the order. -/
structure PriorityQueue where
  push : List Node → Node → List Node
  pop : List Node → Option (Node × List Node)
  push_perm : ∀ q n, List.Perm (push q n) (n :: q)
  pop_nil : pop [] = none
  pop_cons : ∀ n q, ∃ t r, pop (n :: q) = some (t, r)
  pop_perm : ∀ q t r, pop q = some (t, r) → List.Perm (t :: r) q
  pop_top : ∀ q t r, pop q = some (t, r) → ∀ n ∈ q, CompareNode t n = false

/-- Removes the first entry of least `totalCost` from a list. -/
def popMin : List Node → Option (Node × List Node)
  | [] => none
  | n :: q =>
    match popMin q with
    | none => some (n, [])
    | some (m, r) => if n.totalCost ≤ m.totalCost then some (n, q) else some (m, n :: r)

/-! ## The search -/

/-- The local state of `findPath` inside its loop, and three observation logs. -/
structure SearchState where
  /-- The content of `openSet`. -/
  openSet : List Node
  /-- The matrix `visited`. -/
  visited : List (List Bool)
  /-- Log: every node built by `new Node`, most recent first. -/
  allocated : List Node
  /-- Log: every node whose cell was marked visited (an expansion), most recent first. -/
  expanded : List Node
  /-- Log: every cell whose `grid` entry was read, most recent first. -/
  gridReads : List Vector2i

/-- How a run of `findPath` ends. -/
inductive Outcome where
  /-- The function returned this path. -/
  | returned (path : List Vector2i)
  /-- A vector was indexed outside its size. -/
  | outOfRange
  /-- The fuel of the embedding ran out. -/
  | outOfFuel
deriving DecidableEq, Repr

/-- The outcome of a run together with the state in which it ended. -/
structure Run where
  outcome : Outcome
  final : SearchState

/-- The initializer list `neighbors` of the loop body. -/
def neighbors (p : Vector2i) : List Vector2i :=
  [⟨p.x + 1, p.y⟩, ⟨p.x - 1, p.y⟩, ⟨p.x, p.y + 1⟩, ⟨p.x, p.y - 1⟩]

/-- The bounds test `n.x >= 0 && n.x < GRID_WIDTH && n.y >= 0 && n.y < GRID_HEIGHT`. -/
def inBounds (n : Vector2i) : Prop :=
  n.x ≥ 0 ∧ n.x < GRID_WIDTH ∧ n.y ≥ 0 ∧ n.y < GRID_HEIGHT

instance (n : Vector2i) : Decidable (inBounds n) :=
  inferInstanceAs (Decidable (n.x ≥ 0 ∧ n.x < GRID_WIDTH ∧ n.y ≥ 0 ∧ n.y < GRID_HEIGHT))

/-- One pass of the body of `for (auto& n : neighbors)`. The conjunction is evaluated
left to right and stops at the first false operand, so `grid` is read only for an
in-bounds cell that is not visited. -/
def visitNeighbor (pq : PriorityQueue) (grid : Grid) (endPos : Vector2i) (useAStar : Bool)
    (current : Node) (st : SearchState) (n : Vector2i) : Option SearchState :=
  if inBounds n then
    match readAt st.visited n with
    | none => none
    | some true => some st
    | some false =>
      match readAt grid n with
      | none => none
      | some cell =>
        let st1 := { st with gridReads := n :: st.gridReads }
        if cell = 0 then
          let newCost := current.cost + 1
          let heuristicValue := if useAStar then heuristic n endPos else 0
          let node := Node.mk n newCost heuristicValue (some current)
          some { st1 with openSet := pq.push st1.openSet node, allocated := node :: st1.allocated }
        else some st1
  else some st

/-- The loop `for (auto& n : neighbors)`; `none` when an access was out of range. -/
def visitNeighbors (pq : PriorityQueue) (grid : Grid) (endPos : Vector2i) (useAStar : Bool)
    (current : Node) : List Vector2i → SearchState → Option SearchState
  | [], st => some st
  | n :: ns, st =>
    match visitNeighbor pq grid endPos useAStar current st n with
    | none => none
    | some st1 => visitNeighbors pq grid endPos useAStar current ns st1

/-- The loop `while (!openSet.empty())` of `findPath` and the `return {}` after it. -/
def searchLoop (pq : PriorityQueue) (grid : Grid) (endPos : Vector2i) (useAStar : Bool) :
    Nat → SearchState → Run
  | 0, st => ⟨.outOfFuel, st⟩
  | fuel + 1, st =>
    match pq.pop st.openSet with
    | none => ⟨.returned [], st⟩
    | some (current, rest) =>
      let st1 := { st with openSet := rest }
      if current.pos = endPos then ⟨.returned (reconstructPath (some current)), st1⟩
      else
        match readAt st1.visited current.pos with
        | none => ⟨.outOfRange, st1⟩
        | some true => searchLoop pq grid endPos useAStar fuel st1
        | some false =>
          let st2 := { st1 with visited := writeAt st1.visited current.pos true,
                                expanded := current :: st1.expanded }
          match visitNeighbors pq grid endPos useAStar current (neighbors current.pos) st2 with
          | none => ⟨.outOfRange, st2⟩
          | some st3 => searchLoop pq grid endPos useAStar fuel st3

/-- Fuel handed to the loop: one more than `1 + 4 * GRID_HEIGHT * GRID_WIDTH`, the
largest number of entries the queue can ever receive. -/
def searchFuel : Nat := 4 * (GRID_HEIGHT.toNat * GRID_WIDTH.toNat) + 2

/-- The state before anything is allocated. -/
def SearchState.empty : SearchState := ⟨[], [], [], [], []⟩

/-- The node pushed first: `new Node(startPos, 0, heuristic(startPos, endPos), nullptr)`. -/
def startNode (startPos endPos : Vector2i) : Node :=
  Node.mk startPos 0 (heuristic startPos endPos) none

/-- The state on entry to the loop: `visited` all false and the start node pushed. -/
def initialState (pq : PriorityQueue) (startPos endPos : Vector2i) : SearchState :=
  { openSet := pq.push [] (startNode startPos endPos)
    visited := List.replicate GRID_HEIGHT.toNat (List.replicate GRID_WIDTH.toNat false)
    allocated := [startNode startPos endPos]
    expanded := []
    gridReads := [] }

/-- The function `findPath`, with the state in which it returned. -/
def findPathRun (pq : PriorityQueue) (grid : Grid) (startPos endPos : Vector2i)
    (useAStar : Bool) : Run :=
  if startPos.x = -1 ∨ endPos.x = -1 then ⟨.returned [], SearchState.empty⟩
  else searchLoop pq grid endPos useAStar searchFuel (initialState pq startPos endPos)

/-- The function `findPath`: what it returns. -/
def findPath (pq : PriorityQueue) (grid : Grid) (startPos endPos : Vector2i)
    (useAStar : Bool) : Outcome :=
  (findPathRun pq grid startPos endPos useAStar).outcome

/-! ## A reference queue and sample grids -/

/-- A priority queue that appends on `push` and removes the first least entry on `pop`. -/
def listQueue : PriorityQueue where
  push q n := q ++ [n]
  pop := popMin
  push_perm q n := List.perm_append_singleton n q
  pop_nil := rfl
  pop_cons n q := by
    simp only [popMin]
    cases popMin q with
    | none => exact ⟨_, _, rfl⟩
    | some v =>
      by_cases h : n.totalCost ≤ v.1.totalCost
      · exact ⟨_, _, if_pos h⟩
      · exact ⟨_, _, if_neg h⟩
  pop_perm := by
    have hne : ∀ (a : Node) (q : List Node), popMin (a :: q) ≠ none := by
      intro a q
      simp only [popMin]
      cases popMin q with
      | none => simp
      | some v => by_cases h : a.totalCost ≤ v.1.totalCost <;> simp [h]
    intro q
    induction q with
    | nil => intro t r h; simp [popMin] at h
    | cons n q ih =>
      intro t r h
      simp only [popMin] at h
      cases hq : popMin q with
      | none =>
        rw [hq] at h
        simp only [Option.some.injEq, Prod.mk.injEq] at h
        obtain ⟨rfl, rfl⟩ := h
        cases q with
        | nil => exact List.Perm.refl _
        | cons a q =>
          exact absurd hq (hne a q)
      | some v =>
        obtain ⟨m, r1⟩ := v
        rw [hq] at h
        by_cases hle : n.totalCost ≤ m.totalCost
        · simp only [hle, if_true, Option.some.injEq, Prod.mk.injEq] at h
          obtain ⟨rfl, rfl⟩ := h
          exact List.Perm.refl _
        · simp only [hle, if_false, Option.some.injEq, Prod.mk.injEq] at h
          obtain ⟨rfl, rfl⟩ := h
          exact (List.Perm.swap n m r1).trans ((ih m r1 hq).cons n)
  pop_top := by
    have hne : ∀ (a : Node) (q : List Node), popMin (a :: q) ≠ none := by
      intro a q
      simp only [popMin]
      cases popMin q with
      | none => simp
      | some v => by_cases h : a.totalCost ≤ v.1.totalCost <;> simp [h]
    intro q
    induction q with
    | nil => intro t r h; simp [popMin] at h
    | cons n q ih =>
      intro t r h k hk
      simp only [popMin] at h
      cases hq : popMin q with
      | none =>
        rw [hq] at h
        simp only [Option.some.injEq, Prod.mk.injEq] at h
        obtain ⟨rfl, rfl⟩ := h
        cases q with
        | nil =>
          simp only [List.mem_singleton] at hk
          subst hk
          simp [CompareNode]
        | cons a q =>
          exact absurd hq (hne a q)
      | some v =>
        obtain ⟨m, r1⟩ := v
        rw [hq] at h
        have hm := ih m r1 hq
        simp only [CompareNode, gt_iff_lt, decide_eq_false_iff_not, not_lt] at hm ⊢
        by_cases hle : n.totalCost ≤ m.totalCost
        · simp only [hle, if_true, Option.some.injEq, Prod.mk.injEq] at h
          obtain ⟨rfl, rfl⟩ := h
          rcases List.mem_cons.mp hk with rfl | hk
          · exact le_refl _
          · exact le_trans hle (hm k hk)
        · simp only [hle, if_false, Option.some.injEq, Prod.mk.injEq] at h
          obtain ⟨rfl, rfl⟩ := h
          rcases List.mem_cons.mp hk with rfl | hk
          · omega
          · exact hm k hk

/-- The grid with every cell free. -/
def freeGrid : Grid := List.replicate 15 (List.replicate 15 0)

/-- The free grid with the single cell `(0, 0)` blocked. -/
def cornerBlockedGrid : Grid := (1 :: List.replicate 14 0) :: List.replicate 14 (List.replicate 15 0)

/-- The free grid with the single cell `(1, 0)` blocked. -/
def wallGrid : Grid := (0 :: 1 :: List.replicate 13 0) :: List.replicate 14 (List.replicate 15 0)

/-- The free grid with the cells `(0, 0)`, `(2, 0)` and `(1, 1)` blocked: every in-bounds
neighbour of the free cell `(1, 0)` is blocked. -/
def enclosedGrid : Grid :=
  (1 :: 0 :: 1 :: List.replicate 12 0) :: (0 :: 1 :: List.replicate 13 0) ::
    List.replicate 13 (List.replicate 15 0)

/-! ## Vocabulary of the claims -/

/-- The grid has `GRID_HEIGHT` rows of `GRID_WIDTH` cells, as the global `grid` always has. -/
def gridOk (grid : Grid) : Prop :=
  grid.length = GRID_HEIGHT.toNat ∧ ∀ row ∈ grid, row.length = GRID_WIDTH.toNat

instance (grid : Grid) : Decidable (gridOk grid) :=
  inferInstanceAs (Decidable
    (grid.length = GRID_HEIGHT.toNat ∧ ∀ row ∈ grid, row.length = GRID_WIDTH.toNat))

/-- Two cells one orthogonal unit step apart: `|dx| + |dy| = 1`. -/
def isStep (a b : Vector2i) : Prop :=
  (a.x - b.x).natAbs + (a.y - b.y).natAbs = 1

instance (a b : Vector2i) : Decidable (isStep a b) :=
  inferInstanceAs (Decidable ((a.x - b.x).natAbs + (a.y - b.y).natAbs = 1))

/-- A cell inside the grid whose grid value is `0`. -/
def isFree (grid : Grid) (c : Vector2i) : Prop :=
  inBounds c ∧ readAt grid c = some 0

instance (grid : Grid) (c : Vector2i) : Decidable (isFree grid c) :=
  inferInstanceAs (Decidable (inBounds c ∧ readAt grid c = some 0))

/-- A blocked cell: `grid[c.y][c.x] == 1`. -/
def isBlocked (grid : Grid) (c : Vector2i) : Prop :=
  readAt grid c = some 1

instance (grid : Grid) (c : Vector2i) : Decidable (isBlocked grid c) :=
  inferInstanceAs (Decidable (readAt grid c = some 1))

/-- One move of a route: an orthogonal unit step onto an in-bounds free cell. -/
def isMove (grid : Grid) (a b : Vector2i) : Prop :=
  isStep a b ∧ isFree grid b

instance (grid : Grid) (a b : Vector2i) : Decidable (isMove grid a b) :=
  inferInstanceAs (Decidable (isStep a b ∧ isFree grid b))

/-- A sequence of cells from `s` to `e` by orthogonal unit steps, every cell after the
first in bounds and free. -/
def isRoute (grid : Grid) (s e : Vector2i) (p : List Vector2i) : Prop :=
  p.head? = some s ∧ p.getLast? = some e ∧ List.Chain' (isMove grid) p

/-- A walk of `l` moves from `a` to `b`. -/
inductive Walk (grid : Grid) (a : Vector2i) : Nat → Vector2i → Prop where
  | here : Walk grid a 0 a
  | step {l : Nat} {b c : Vector2i} : Walk grid a l b → isMove grid b c → Walk grid a (l + 1) c

/-- The heuristic value that the loop gives a successor node at cell `n`. -/
def keyH (endPos : Vector2i) (useAStar : Bool) (n : Vector2i) : Int :=
  if useAStar then heuristic n endPos else 0

/-- The successor node that the loop builds for neighbour `n` of `current`. -/
def childNode (endPos : Vector2i) (useAStar : Bool) (current : Node) (n : Vector2i) : Node :=
  Node.mk n (current.cost + 1) (keyH endPos useAStar n) (some current)

/-- The test of the neighbour loop against the matrix `visited`. -/
def admissible (visited : List (List Bool)) (grid : Grid) (n : Vector2i) : Prop :=
  inBounds n ∧ readAt visited n = some false ∧ readAt grid n = some 0

/-- A node whose parent chain was built by the search: it ends at a root node on the
start cell with cost 0, every link is a move that adds 1 to the cost, and no cell
repeats along the chain. -/
inductive Rooted (grid : Grid) (startPos : Vector2i) : Node → Prop where
  | root (h : Int) : Rooted grid startPos (Node.mk startPos 0 h none)
  | child {p : Node} (v : Vector2i) (h : Int) : Rooted grid startPos p → isMove grid p.pos v →
      v ∉ p.chain → Rooted grid startPos (Node.mk v (p.cost + 1) h (some p))

/-- Number of `false` entries of a matrix. -/
def countFalse (m : List (List Bool)) : Nat :=
  (m.map (fun r => r.count false)).sum

/-- The quantity that every iteration of the loop decreases. -/
def measure (st : SearchState) : Nat :=
  st.openSet.length + 4 * countFalse st.visited

/-- The invariant of the loop, on the queue content `Q` and the matrix `V`. -/
structure Inv (grid : Grid) (startPos endPos : Vector2i) (useAStar : Bool)
    (Q : List Node) (V : List (List Bool)) : Prop where
  dom : ∀ p, inBounds p → ∃ b, readAt V p = some b
  rooted : ∀ n ∈ Q, Rooted grid startPos n
  anc : ∀ n ∈ Q, ∀ a ∈ chainToRoot n.parent, readAt V a = some true
  fresh : readAt V startPos ≠ some true → ∃ n, Q = [n] ∧ n.pos = startPos ∧ n.cost = 0
  keyed : readAt V startPos = some true → ∀ n ∈ Q, n.heuristic = keyH endPos useAStar n.pos
  frontier : ∀ u v, readAt V u = some true → isMove grid u v → readAt V v ≠ some true →
    ∃ n ∈ Q, n.pos = v ∧ ∀ l, Walk grid startPos l u → n.cost ≤ (l : Int) + 1
  goal : readAt V endPos ≠ some true

/-- What the loop establishes about the path it returns: either the path is empty and no
walk leads from the start to the end cell, or the path is read off a well-formed node on
the end cell whose cost no walk from the start to the end cell undercuts. -/
def SearchPost (grid : Grid) (startPos endPos : Vector2i) (p : List Vector2i) : Prop :=
  (p = [] ∧ ∀ l : Nat, ¬ Walk grid startPos l endPos) ∨
  (∃ n, Rooted grid startPos n ∧ n.pos = endPos ∧ p = reconstructPath (some n) ∧
    ∀ l : Nat, Walk grid startPos l endPos → n.cost ≤ (l : Int))

/-- Every cell of the grid holds `0`. -/
def allFree (grid : Grid) : Prop :=
  ∀ row ∈ grid, ∀ cell ∈ row, cell = 0

instance (grid : Grid) : Decidable (allFree grid) :=
  inferInstanceAs (Decidable (∀ row ∈ grid, ∀ cell ∈ row, cell = 0))

/-- The invariant of the loop on the observation logs of the search state. -/
structure LogInv (grid : Grid) (startPos endPos : Vector2i) (useAStar : Bool)
    (st : SearchState) : Prop where
  exp_nodup : (st.expanded.map Node.pos).Nodup
  exp_visited : ∀ n ∈ st.expanded, readAt st.visited n.pos = some true
  exp_count : st.expanded.length + countFalse st.visited
    = GRID_HEIGHT.toNat * GRID_WIDTH.toNat
  alloc_count : st.allocated.length ≤ 1 + 4 * st.expanded.length
  open_alloc : ∀ n ∈ st.openSet, n ∈ st.allocated
  exp_alloc : ∀ n ∈ st.expanded, n ∈ st.allocated
  alloc_rooted : ∀ n ∈ st.allocated, Rooted grid startPos n
  alloc_parent : ∀ n ∈ st.allocated, n = startNode startPos endPos ∨
    ∃ p ∈ st.expanded, n.parent = some p ∧ n.cost = p.cost + 1 ∧
      n.heuristic = keyH endPos useAStar n.pos
  start_alloc : startNode startPos endPos ∈ st.allocated
  exp_opt : ∀ n ∈ st.expanded, ∀ l : Nat, Walk grid startPos l n.pos → n.cost ≤ (l : Int)
  reads : ∀ c ∈ st.gridReads, inBounds c ∧ c ≠ startPos

/-- How a run of the loop ends: from a last state `stl` that satisfies the invariant and
`P`, either with the queue empty or by popping a node on the end cell. -/
def EndsFrom (pq : PriorityQueue) (grid : Grid) (startPos endPos : Vector2i) (useAStar : Bool)
    (P : SearchState → Prop) (r : Run) : Prop :=
  ∃ stl : SearchState, Inv grid startPos endPos useAStar stl.openSet stl.visited ∧ P stl ∧
    ((pq.pop stl.openSet = none ∧ r = ⟨.returned [], stl⟩) ∨
     (∃ c rest, pq.pop stl.openSet = some (c, rest) ∧ c.pos = endPos ∧
        r = ⟨.returned (reconstructPath (some c)), { stl with openSet := rest }⟩))

/-! ## Vector access lemmas -/

theorem readAt_eq_some {α : Type} {m : List (List α)} {p : Vector2i} {b : α}
    (h : readAt m p = some b) :
    0 ≤ p.y ∧ 0 ≤ p.x ∧ ∃ row, m[p.y.toNat]? = some row ∧ row[p.x.toNat]? = some b := by
  unfold readAt at h
  split at h
  · rename_i hc
    cases hrow : m[p.y.toNat]? with
    | none => rw [hrow] at h; simp at h
    | some row => rw [hrow] at h; exact ⟨hc.1, hc.2, row, rfl, h⟩
  · simp at h

/-- Reading after the assignment `m[u.y][u.x] = v`, for an index `u` inside the matrix. -/
theorem readAt_writeAt {α : Type} (m : List (List α)) (u p : Vector2i) (v b0 : α)
    (h : readAt m u = some b0) :
    readAt (writeAt m u v) p = if p = u then some v else readAt m p := by
  obtain ⟨huy, hux, row, hrow, hcell⟩ := readAt_eq_some h
  have hylt : u.y.toNat < m.length := (List.getElem?_eq_some_iff.mp hrow).1
  have hxlt : u.x.toNat < row.length := (List.getElem?_eq_some_iff.mp hcell).1
  unfold writeAt
  rw [hrow]
  simp only
  unfold readAt
  by_cases hp : 0 ≤ p.y ∧ 0 ≤ p.x
  · simp only [hp, and_self, if_true]
    by_cases hy : u.y.toNat = p.y.toNat
    · rw [← hy, List.getElem?_set_self hylt]
      simp only [hrow]
      by_cases hx : u.x.toNat = p.x.toNat
      · have : p = u := by
          cases p; cases u; simp only [Vector2i.mk.injEq] at *; omega
        rw [if_pos this, ← hx, List.getElem?_set_self hxlt]
      · have : p ≠ u := by
          intro e; subst e; exact hx rfl
        rw [if_neg this, List.getElem?_set_ne hx]
    · have : p ≠ u := by
        intro e; subst e; exact hy rfl
      rw [if_neg this, List.getElem?_set_ne hy]
  · have : p ≠ u := by
      intro e; subst e; exact hp ⟨huy, hux⟩
    simp only [hp, if_false, if_neg this]

theorem count_false_set (r : List Bool) : ∀ i : Nat, r[i]? = some false →
    (r.set i true).count false + 1 = r.count false := by
  induction r with
  | nil => intro i h; simp at h
  | cons a r ih =>
    intro i h
    cases i with
    | zero =>
      simp only [List.getElem?_cons_zero, Option.some.injEq] at h
      subst h
      simp [List.set]
    | succ i =>
      simp only [List.getElem?_cons_succ] at h
      have := ih i h
      simp only [List.set, List.count_cons]
      omega

theorem countFalse_set (m : List (List Bool)) : ∀ (i : Nat) (row row1 : List Bool),
    m[i]? = some row → row1.count false + 1 = row.count false →
    countFalse (m.set i row1) + 1 = countFalse m := by
  induction m with
  | nil => intro i row row1 h; simp at h
  | cons a m ih =>
    intro i row row1 h hc
    cases i with
    | zero =>
      simp only [List.getElem?_cons_zero, Option.some.injEq] at h
      subst h
      simp only [countFalse, List.set, List.map_cons, List.sum_cons]
      omega
    | succ i =>
      simp only [List.getElem?_cons_succ] at h
      have := ih i row row1 h hc
      simp only [countFalse, List.set, List.map_cons, List.sum_cons] at this ⊢
      omega

/-- Marking an unvisited cell lowers the number of `false` entries by one. -/
theorem countFalse_writeAt (m : List (List Bool)) (u : Vector2i)
    (h : readAt m u = some false) : countFalse (writeAt m u true) + 1 = countFalse m := by
  obtain ⟨_, _, row, hrow, hcell⟩ := readAt_eq_some h
  unfold writeAt
  rw [hrow]
  exact countFalse_set m _ row _ hrow (count_false_set row _ hcell)

/-! ## Grid, heuristic and walk lemmas -/

theorem readAt_initial (p : Vector2i) (h : inBounds p) :
    readAt (List.replicate GRID_HEIGHT.toNat (List.replicate GRID_WIDTH.toNat false)) p
      = some false := by
  obtain ⟨hx0, hx1, hy0, hy1⟩ := h
  unfold readAt
  have hy : p.y.toNat < GRID_HEIGHT.toNat := by simp only [GRID_HEIGHT] at *; omega
  have hx : p.x.toNat < GRID_WIDTH.toNat := by simp only [GRID_WIDTH] at *; omega
  have hc : 0 ≤ p.y ∧ 0 ≤ p.x := ⟨hy0, hx0⟩
  rw [if_pos hc, List.getElem?_eq_getElem (by simpa using hy)]
  simp only [List.getElem_replicate]
  rw [List.getElem?_eq_getElem (by simpa using hx)]
  simp

theorem readAt_initial_ne_true (p : Vector2i) :
    readAt (List.replicate GRID_HEIGHT.toNat (List.replicate GRID_WIDTH.toNat false)) p
      ≠ some true := by
  intro h
  obtain ⟨_, _, row, hrow, hcell⟩ := readAt_eq_some h
  obtain ⟨h1, h2⟩ := List.getElem?_eq_some_iff.mp hrow
  simp only [List.getElem_replicate] at h2
  subst h2
  obtain ⟨h3, h4⟩ := List.getElem?_eq_some_iff.mp hcell
  simp at h4

theorem readAt_grid (grid : Grid) (hg : gridOk grid) (p : Vector2i) (h : inBounds p) :
    ∃ c, readAt grid p = some c := by
  obtain ⟨hx0, hx1, hy0, hy1⟩ := h
  obtain ⟨hrows, hcols⟩ := hg
  have hy : p.y.toNat < grid.length := by rw [hrows]; simp only [GRID_HEIGHT] at *; omega
  have hrow : (grid[p.y.toNat]).length = GRID_WIDTH.toNat := hcols _ (List.getElem_mem hy)
  have hx : p.x.toNat < (grid[p.y.toNat]).length := by
    rw [hrow]; simp only [GRID_WIDTH] at *; omega
  refine ⟨(grid[p.y.toNat])[p.x.toNat], ?_⟩
  unfold readAt
  have hc : 0 ≤ p.y ∧ 0 ≤ p.x := ⟨hy0, hx0⟩
  rw [if_pos hc, List.getElem?_eq_getElem hy]
  simp only
  rw [List.getElem?_eq_getElem hx]

theorem countFalse_initial :
    countFalse (List.replicate GRID_HEIGHT.toNat (List.replicate GRID_WIDTH.toNat false))
      = GRID_HEIGHT.toNat * GRID_WIDTH.toNat := by
  simp [countFalse, GRID_HEIGHT, GRID_WIDTH]

theorem Node.chain_eq (n : Node) : n.chain = n.pos :: chainToRoot n.parent := by
  cases n with
  | mk pos c h par =>
    cases par with
    | none => rfl
    | some p => rfl

/-- The four entries of `neighbors` are exactly the cells one orthogonal step away. -/
theorem mem_neighbors_iff (a b : Vector2i) : b ∈ neighbors a ↔ isStep a b := by
  cases a with
  | mk ax ay =>
    cases b with
    | mk bx b_y =>
      simp only [neighbors, isStep, List.mem_cons, Vector2i.mk.injEq, List.mem_singleton,
        List.mem_nil_iff, or_false]
      omega

theorem heuristic_step (a b e : Vector2i) (h : isStep a b) :
    heuristic a e ≤ 1 + heuristic b e := by
  simp only [heuristic, isStep] at *
  omega

theorem heuristic_self (e : Vector2i) : heuristic e e = 0 := by
  simp [heuristic]

theorem keyH_step (endPos : Vector2i) (useAStar : Bool) (a b : Vector2i) (h : isStep a b) :
    keyH endPos useAStar a ≤ 1 + keyH endPos useAStar b := by
  unfold keyH
  cases useAStar with
  | true => simpa using heuristic_step a b endPos h
  | false => simp

/-- Consistency of the successor heuristic along a walk. -/
theorem keyH_walk (grid : Grid) (endPos : Vector2i) (useAStar : Bool) {a b : Vector2i} {l : Nat}
    (w : Walk grid a l b) : keyH endPos useAStar a ≤ (l : Int) + keyH endPos useAStar b := by
  induction w with
  | here => simp
  | step w hm ih =>
    have := keyH_step endPos useAStar _ _ hm.1
    push_cast
    omega

theorem heuristic_walk (grid : Grid) {a b : Vector2i} {l : Nat} (w : Walk grid a l b) :
    heuristic a b ≤ (l : Int) := by
  have := keyH_walk grid b true w
  simp only [keyH, if_true, heuristic_self] at this
  omega

theorem Walk.cons (grid : Grid) {a b c : Vector2i} {l : Nat} (hm : isMove grid a b)
    (w : Walk grid b l c) : Walk grid a (l + 1) c := by
  induction w with
  | here => exact Walk.step Walk.here hm
  | step _ hm2 ih => exact Walk.step ih hm2

theorem Walk.of_chain (grid : Grid) : ∀ (rest : List Vector2i) (a : Vector2i),
    List.Chain (isMove grid) a rest →
    Walk grid a rest.length ((a :: rest).getLast (List.cons_ne_nil a rest)) := by
  intro rest
  induction rest with
  | nil => intro a _; exact Walk.here
  | cons b rest ih =>
    intro a h
    rw [List.chain_cons] at h
    have := ih b h.2
    rw [List.getLast_cons (List.cons_ne_nil b rest)]
    exact Walk.cons grid h.1 this

/-- A route of `l + 1` cells is a walk of `l` moves. -/
theorem Walk.of_route (grid : Grid) (s e : Vector2i) (q : List Vector2i)
    (h : isRoute grid s e q) : ∃ l : Nat, l + 1 = q.length ∧ Walk grid s l e := by
  obtain ⟨hh, hl, hc⟩ := h
  cases q with
  | nil => simp at hh
  | cons a rest =>
    simp only [List.head?_cons, Option.some.injEq] at hh
    subst hh
    refine ⟨rest.length, rfl, ?_⟩
    have hw := Walk.of_chain grid rest a hc
    rw [List.getLast?_eq_getLast _ (List.cons_ne_nil a rest)] at hl
    simp only [Option.some.injEq] at hl
    rw [hl] at hw
    exact hw

/-! ## Nodes with a well-formed parent chain -/

@[simp] theorem Node.pos_mk (p : Vector2i) (c h : Int) (par : Option Node) :
    (Node.mk p c h par).pos = p := rfl

@[simp] theorem Node.cost_mk (p : Vector2i) (c h : Int) (par : Option Node) :
    (Node.mk p c h par).cost = c := rfl

@[simp] theorem Node.heuristic_mk (p : Vector2i) (c h : Int) (par : Option Node) :
    (Node.mk p c h par).heuristic = h := rfl

@[simp] theorem Node.parent_mk (p : Vector2i) (c h : Int) (par : Option Node) :
    (Node.mk p c h par).parent = par := rfl

theorem Rooted.chain_moves {grid : Grid} {startPos : Vector2i} {n : Node}
    (h : Rooted grid startPos n) : List.Chain' (flip (isMove grid)) n.chain := by
  induction h with
  | root h => simp [Node.chain]
  | child v h hp hm hfresh ih =>
    rename_i p
    simp only [Node.chain]
    rw [Node.chain_eq] at ih ⊢
    exact List.Chain'.cons hm ih

theorem Rooted.chain_getLast {grid : Grid} {startPos : Vector2i} {n : Node}
    (h : Rooted grid startPos n) : n.chain.getLast? = some startPos := by
  induction h with
  | root h => simp [Node.chain]
  | child v h hp hm hfresh ih =>
    rename_i p
    simp only [Node.chain]
    rw [Node.chain_eq] at ih ⊢
    rw [List.getLast?_cons_cons]
    exact ih

theorem Rooted.chain_nodup {grid : Grid} {startPos : Vector2i} {n : Node}
    (h : Rooted grid startPos n) : n.chain.Nodup := by
  induction h with
  | root h => simp [Node.chain]
  | child v h hp hm hfresh ih =>
    simp only [Node.chain]
    exact List.nodup_cons.mpr ⟨hfresh, ih⟩

theorem Rooted.chain_length {grid : Grid} {startPos : Vector2i} {n : Node}
    (h : Rooted grid startPos n) : (n.chain.length : Int) = n.cost + 1 := by
  induction h with
  | root h => simp [Node.chain]
  | child v h hp hm hfresh ih =>
    simp only [Node.chain, Node.cost_mk, List.length_cons]
    push_cast
    omega

theorem Rooted.walk {grid : Grid} {startPos : Vector2i} {n : Node}
    (h : Rooted grid startPos n) : ∃ l : Nat, (l : Int) = n.cost ∧ Walk grid startPos l n.pos := by
  induction h with
  | root h => exact ⟨0, rfl, Walk.here⟩
  | child v h hp hm hfresh ih =>
    obtain ⟨l, hl, w⟩ := ih
    refine ⟨l + 1, ?_, Walk.step w hm⟩
    simp only [Node.cost_mk]
    push_cast
    omega

theorem Rooted.inBounds {grid : Grid} {startPos : Vector2i} {n : Node}
    (h : Rooted grid startPos n) (hs : inBounds startPos) : inBounds n.pos := by
  cases h with
  | root h => exact hs
  | child v h hp hm hfresh => exact hm.2.1

/-- The path reconstructed from a well-formed node is a route from the start to its cell. -/
theorem Rooted.route {grid : Grid} {startPos : Vector2i} {n : Node}
    (h : Rooted grid startPos n) : isRoute grid startPos n.pos (reconstructPath (some n)) := by
  refine ⟨?_, ?_, ?_⟩
  · simp only [reconstructPath, chainToRoot, List.head?_reverse]
    exact h.chain_getLast
  · simp only [reconstructPath, chainToRoot, List.getLast?_reverse]
    rw [Node.chain_eq]
    rfl
  · simp only [reconstructPath, chainToRoot]
    rw [List.chain'_reverse]
    exact h.chain_moves

theorem Rooted.path_nodup {grid : Grid} {startPos : Vector2i} {n : Node}
    (h : Rooted grid startPos n) : (reconstructPath (some n)).Nodup := by
  simp only [reconstructPath, chainToRoot]
  exact List.nodup_reverse.mpr h.chain_nodup

theorem Rooted.path_length {grid : Grid} {startPos : Vector2i} {n : Node}
    (h : Rooted grid startPos n) : ((reconstructPath (some n)).length : Int) = n.cost + 1 := by
  simp only [reconstructPath, chainToRoot, List.length_reverse]
  exact h.chain_length

theorem chain_tail_free (grid : Grid) : ∀ (p : List Vector2i), List.Chain' (isMove grid) p →
    ∀ c ∈ p.tail, isFree grid c := by
  intro p
  induction p with
  | nil => intro _ c hc; simp at hc
  | cons a rest ih =>
    intro h c hc
    simp only [List.tail_cons] at hc
    cases rest with
    | nil => simp at hc
    | cons b rest =>
      rw [List.chain'_cons] at h
      rcases List.mem_cons.mp hc with rfl | hc
      · exact h.1.2
      · exact ih h.2 c (by simpa using hc)

theorem chain_steps (grid : Grid) (p : List Vector2i) (h : List.Chain' (isMove grid) p) :
    List.Chain' isStep p :=
  List.Chain'.imp (fun _ _ hm => hm.1) h

/-! ## The neighbour loop -/

theorem visitNeighbor_spec (pq : PriorityQueue) (grid : Grid) (endPos : Vector2i)
    (useAStar : Bool) (current : Node) (st st1 : SearchState) (n : Vector2i)
    (h : visitNeighbor pq grid endPos useAStar current st n = some st1) :
    st1.visited = st.visited ∧
    ((admissible st.visited grid n ∧
        List.Perm st1.openSet (childNode endPos useAStar current n :: st.openSet)) ∨
     (¬ admissible st.visited grid n ∧ st1.openSet = st.openSet)) := by
  unfold visitNeighbor at h
  by_cases hb : inBounds n
  · rw [if_pos hb] at h
    cases hv : readAt st.visited n with
    | none => rw [hv] at h; simp at h
    | some b =>
      rw [hv] at h
      cases b with
      | true =>
        simp only [Option.some.injEq] at h
        subst h
        exact ⟨rfl, Or.inr ⟨fun ha => by rw [ha.2.1] at hv; simp at hv, rfl⟩⟩
      | false =>
        simp only at h
        cases hg : readAt grid n with
        | none => rw [hg] at h; simp at h
        | some cell =>
          rw [hg] at h
          simp only at h
          by_cases hc : cell = 0
          · rw [if_pos hc] at h
            simp only [Option.some.injEq] at h
            subst h
            subst hc
            exact ⟨rfl, Or.inl ⟨⟨hb, hv, hg⟩, pq.push_perm _ _⟩⟩
          · rw [if_neg hc] at h
            simp only [Option.some.injEq] at h
            subst h
            refine ⟨rfl, Or.inr ⟨fun ha => ?_, rfl⟩⟩
            rw [ha.2.2] at hg
            simp only [Option.some.injEq] at hg
            exact hc hg.symm
  · rw [if_neg hb] at h
    simp only [Option.some.injEq] at h
    subst h
    exact ⟨rfl, Or.inr ⟨fun ha => hb ha.1, rfl⟩⟩

theorem visitNeighbor_some (pq : PriorityQueue) (grid : Grid) (endPos : Vector2i)
    (useAStar : Bool) (current : Node) (st : SearchState) (n : Vector2i)
    (hv : inBounds n → ∃ b, readAt st.visited n = some b)
    (hg : inBounds n → ∃ c, readAt grid n = some c) :
    ∃ st1, visitNeighbor pq grid endPos useAStar current st n = some st1 := by
  unfold visitNeighbor
  by_cases hb : inBounds n
  · rw [if_pos hb]
    obtain ⟨b, hb1⟩ := hv hb
    obtain ⟨c, hc1⟩ := hg hb
    rw [hb1]
    cases b with
    | true => exact ⟨_, rfl⟩
    | false =>
      simp only [hc1]
      by_cases hc : c = 0
      · rw [if_pos hc]; exact ⟨_, rfl⟩
      · rw [if_neg hc]; exact ⟨_, rfl⟩
  · rw [if_neg hb]; exact ⟨_, rfl⟩

/-- Effect of the neighbour loop: `visited` is untouched and the queue gains exactly the
successor nodes of the admissible neighbours. -/
theorem visitNeighbors_spec (pq : PriorityQueue) (grid : Grid) (endPos : Vector2i)
    (useAStar : Bool) (current : Node) : ∀ (ns : List Vector2i) (st st1 : SearchState),
    visitNeighbors pq grid endPos useAStar current ns st = some st1 →
    st1.visited = st.visited ∧
    st1.openSet.length ≤ st.openSet.length + ns.length ∧
    ∀ m, m ∈ st1.openSet ↔
      (m ∈ st.openSet ∨
        ∃ n ∈ ns, admissible st.visited grid n ∧ m = childNode endPos useAStar current n) := by
  intro ns
  induction ns with
  | nil =>
    intro st st1 h
    simp only [visitNeighbors, Option.some.injEq] at h
    subst h
    simp
  | cons n ns ih =>
    intro st st1 h
    simp only [visitNeighbors] at h
    cases h1 : visitNeighbor pq grid endPos useAStar current st n with
    | none => rw [h1] at h; simp at h
    | some st2 =>
      rw [h1] at h
      simp only at h
      obtain ⟨hv2, hq2⟩ := visitNeighbor_spec pq grid endPos useAStar current st st2 n h1
      obtain ⟨hv1, hlen, hmem⟩ := ih st2 st1 h
      refine ⟨hv1.trans hv2, ?_, ?_⟩
      · rcases hq2 with ⟨_, hp⟩ | ⟨_, he⟩
        · have := hp.length_eq
          simp only [List.length_cons] at this ⊢
          omega
        · rw [he] at hlen
          simp only [List.length_cons]
          omega
      · intro m
        rw [hmem m, hv2]
        rcases hq2 with ⟨ha, hp⟩ | ⟨hna, he⟩
        · rw [hp.mem_iff]
          simp only [List.mem_cons, exists_eq_or_imp]
          constructor
          · rintro ((rfl | hm) | hx)
            · exact Or.inr (Or.inl ⟨ha, rfl⟩)
            · exact Or.inl hm
            · exact Or.inr (Or.inr hx)
          · rintro (hm | ⟨_, rfl⟩ | hx)
            · exact Or.inl (Or.inr hm)
            · exact Or.inl (Or.inl rfl)
            · exact Or.inr hx
        · rw [he]
          simp only [List.mem_cons, exists_eq_or_imp]
          constructor
          · rintro (hm | hx)
            · exact Or.inl hm
            · exact Or.inr (Or.inr hx)
          · rintro (hm | ⟨ha, _⟩ | hx)
            · exact Or.inl hm
            · exact absurd ha hna
            · exact Or.inr hx

/-- The neighbour loop makes no out-of-range access when every in-bounds index is inside
`visited` and `grid`. -/
theorem visitNeighbors_some (pq : PriorityQueue) (grid : Grid) (endPos : Vector2i)
    (useAStar : Bool) (current : Node) : ∀ (ns : List Vector2i) (st : SearchState),
    (∀ p, inBounds p → ∃ b, readAt st.visited p = some b) →
    (∀ p, inBounds p → ∃ c, readAt grid p = some c) →
    ∃ st1, visitNeighbors pq grid endPos useAStar current ns st = some st1 := by
  intro ns
  induction ns with
  | nil => intro st _ _; exact ⟨st, rfl⟩
  | cons n ns ih =>
    intro st hv hg
    obtain ⟨st2, h2⟩ := visitNeighbor_some pq grid endPos useAStar current st n (hv n) (hg n)
    have hv2 := (visitNeighbor_spec pq grid endPos useAStar current st st2 n h2).1
    obtain ⟨st1, h1⟩ := ih st2 (by rw [hv2]; exact hv) hg
    exact ⟨st1, by simp only [visitNeighbors, h2, h1]⟩

/-! ## The loop invariant -/

section Invariant

variable {grid : Grid} {startPos endPos : Vector2i} {useAStar : Bool}
  {Q : List Node} {V : List (List Bool)}

/-- Under the invariant, every walk from the start to an unvisited cell passes through
the cell of a queued node that is unvisited and whose cost is at most the length of the
walk up to that cell. -/
theorem Inv.witness (inv : Inv grid startPos endPos useAStar Q V) {l : Nat} {v : Vector2i}
    (w : Walk grid startPos l v) (hv : readAt V v ≠ some true) :
    ∃ n ∈ Q, ∃ i j : Nat, i + j = l ∧ n.cost ≤ (i : Int) ∧ readAt V n.pos ≠ some true ∧
      Walk grid n.pos j v := by
  induction w with
  | here =>
    obtain ⟨n, hq, hp, hc⟩ := inv.fresh hv
    refine ⟨n, by rw [hq]; simp, 0, 0, rfl, by rw [hc]; simp, by rw [hp]; exact hv, ?_⟩
    rw [hp]; exact Walk.here
  | step w hm ih =>
    rename_i l b c
    by_cases hb : readAt V b = some true
    · obtain ⟨n, hn, hp, hc⟩ := inv.frontier b c hb hm hv
      refine ⟨n, hn, l + 1, 0, rfl, ?_, by rw [hp]; exact hv, by rw [hp]; exact Walk.here⟩
      have := hc l w
      push_cast
      omega
    · obtain ⟨n, hn, i, j, hij, hc, hnv, wj⟩ := ih hb
      exact ⟨n, hn, i, j + 1, by omega, hc, hnv, Walk.step wj hm⟩

/-- Under the invariant, a popped node on an unvisited cell costs no more than any walk
from the start to its cell. -/
theorem Inv.pop_cost_le (pq : PriorityQueue) (inv : Inv grid startPos endPos useAStar Q V)
    {c : Node} {rest : List Node} (hpop : pq.pop Q = some (c, rest)) {l : Nat}
    (w : Walk grid startPos l c.pos) (hv : readAt V c.pos ≠ some true) : c.cost ≤ (l : Int) := by
  obtain ⟨n, hn, i, j, hij, hc, _, wj⟩ := inv.witness w hv
  have hcQ : c ∈ Q := (pq.pop_perm Q c rest hpop).mem_iff.mp (List.mem_cons_self c rest)
  by_cases hs : readAt V startPos = some true
  · have h1 := inv.keyed hs c hcQ
    have h2 := inv.keyed hs n hn
    have h3 := pq.pop_top Q c rest hpop n hn
    have h4 := keyH_walk grid endPos useAStar wj
    simp only [CompareNode, Node.totalCost, gt_iff_lt, decide_eq_false_iff_not, not_lt] at h3
    have : (i : Int) + (j : Int) = (l : Int) := by exact_mod_cast hij
    omega
  · obtain ⟨n0, hq, _, hc0⟩ := inv.fresh hs
    rw [hq] at hcQ
    simp only [List.mem_singleton] at hcQ
    rw [hcQ, hc0]
    exact Int.ofNat_nonneg l

/-- The invariant survives the `continue` on an already visited cell. -/
theorem Inv.discard (inv : Inv grid startPos endPos useAStar Q V) {c : Node} {rest : List Node}
    (hperm : List.Perm (c :: rest) Q) (hv : readAt V c.pos = some true) :
    Inv grid startPos endPos useAStar rest V := by
  have hsub : ∀ m, m ∈ rest → m ∈ Q := fun m hm => hperm.mem_iff.mp (List.mem_cons_of_mem c hm)
  have hcQ : c ∈ Q := hperm.mem_iff.mp (List.mem_cons_self c rest)
  refine ⟨inv.dom, fun n hn => inv.rooted n (hsub n hn), fun n hn => inv.anc n (hsub n hn),
    ?_, fun hs n hn => inv.keyed hs n (hsub n hn), ?_, inv.goal⟩
  · intro hs
    obtain ⟨n0, hq, hp, _⟩ := inv.fresh hs
    rw [hq] at hcQ
    simp only [List.mem_singleton] at hcQ
    rw [hcQ, hp] at hv
    exact absurd hv hs
  · intro u v hu hm hvv
    obtain ⟨n, hn, hp, hc⟩ := inv.frontier u v hu hm hvv
    refine ⟨n, ?_, hp, hc⟩
    rcases List.mem_cons.mp (hperm.mem_iff.mpr hn) with rfl | hr
    · rw [hp] at hv; exact absurd hv hvv
    · exact hr

/-- The invariant survives an expansion: marking the popped cell and pushing the
successors of its admissible neighbours. -/
theorem Inv.expand (inv : Inv grid startPos endPos useAStar Q V) {c : Node} {rest : List Node}
    (hperm : List.Perm (c :: rest) Q)
    (hcost : ∀ l : Nat, Walk grid startPos l c.pos → c.cost ≤ (l : Int))
    (hne : c.pos ≠ endPos) (hv : readAt V c.pos = some false) (Q1 : List Node)
    (hQ1 : ∀ m, m ∈ Q1 ↔ (m ∈ rest ∨ ∃ n ∈ neighbors c.pos,
      admissible (writeAt V c.pos true) grid n ∧ m = childNode endPos useAStar c n)) :
    Inv grid startPos endPos useAStar Q1 (writeAt V c.pos true) := by
  have hsub : ∀ m, m ∈ rest → m ∈ Q := fun m hm => hperm.mem_iff.mp (List.mem_cons_of_mem c hm)
  have hcQ : c ∈ Q := hperm.mem_iff.mp (List.mem_cons_self c rest)
  have hr : ∀ p, readAt (writeAt V c.pos true) p = if p = c.pos then some true else readAt V p :=
    fun p => readAt_writeAt V c.pos p true false hv
  have mono : ∀ a, readAt V a = some true → readAt (writeAt V c.pos true) a = some true := by
    intro a ha
    rw [hr a]
    by_cases e : a = c.pos
    · rw [if_pos e]
    · rw [if_neg e]; exact ha
  have hcv : readAt (writeAt V c.pos true) c.pos = some true := by rw [hr, if_pos rfl]
  have hchain : ∀ a ∈ c.chain, readAt (writeAt V c.pos true) a = some true := by
    intro a ha
    rw [Node.chain_eq] at ha
    rcases List.mem_cons.mp ha with rfl | ha
    · exact hcv
    · exact mono a (inv.anc c hcQ a ha)
  have hstart : readAt (writeAt V c.pos true) startPos = some true := by
    by_cases hs : readAt V startPos = some true
    · exact mono _ hs
    · obtain ⟨n0, hq, hp, _⟩ := inv.fresh hs
      rw [hq] at hcQ
      simp only [List.mem_singleton] at hcQ
      rw [← hp, ← hcQ]
      exact hcv
  refine ⟨?_, ?_, ?_, fun hs => absurd hstart hs, ?_, ?_, ?_⟩
  · intro p hp
    rw [hr p]
    by_cases e : p = c.pos
    · exact ⟨true, by rw [if_pos e]⟩
    · rw [if_neg e]; exact inv.dom p hp
  · intro m hm
    rcases (hQ1 m).mp hm with hm | ⟨n, hn, ha, rfl⟩
    · exact inv.rooted m (hsub m hm)
    · refine Rooted.child n _ (inv.rooted c hcQ) ⟨(mem_neighbors_iff _ _).mp hn, ha.1, ha.2.2⟩ ?_
      intro hmem
      have := hchain n hmem
      rw [ha.2.1] at this
      simp at this
  · intro m hm a ha
    rcases (hQ1 m).mp hm with hm | ⟨n, _, _, rfl⟩
    · exact mono a (inv.anc m (hsub m hm) a ha)
    · exact hchain a ha
  · intro _ m hm
    rcases (hQ1 m).mp hm with hm | ⟨n, _, _, rfl⟩
    · by_cases hs : readAt V startPos = some true
      · exact inv.keyed hs m (hsub m hm)
      · obtain ⟨n0, hq, _, _⟩ := inv.fresh hs
        have hlen := hperm.length_eq
        rw [hq] at hlen
        simp only [List.length_cons, List.length_nil] at hlen
        have : rest = [] := List.length_eq_zero.mp (by omega)
        rw [this] at hm
        simp at hm
    · rfl
  · intro u v hu hm hvv
    rw [hr u] at hu
    have hvold : readAt V v ≠ some true := fun h => hvv (mono v h)
    by_cases e : u = c.pos
    · subst e
      obtain ⟨b, hb⟩ := inv.dom v hm.2.1
      have hvf : readAt (writeAt V c.pos true) v = some false := by
        have hne2 : v ≠ c.pos := by
          intro e2; rw [e2] at hvv; exact hvv hcv
        rw [hr v, if_neg hne2, hb]
        cases b with
        | true => exact absurd hb hvold
        | false => rfl
      refine ⟨childNode endPos useAStar c v, ?_, rfl, ?_⟩
      · exact (hQ1 _).mpr (Or.inr ⟨v, (mem_neighbors_iff _ _).mpr hm.1, ⟨hm.2.1, hvf, hm.2.2⟩, rfl⟩)
      · intro l w
        have := hcost l w
        simp only [childNode, Node.cost_mk]
        omega
    · rw [if_neg e] at hu
      obtain ⟨n, hn, hp, hc⟩ := inv.frontier u v hu hm hvold
      refine ⟨n, (hQ1 n).mpr (Or.inl ?_), hp, hc⟩
      rcases List.mem_cons.mp (hperm.mem_iff.mpr hn) with rfl | hrst
      · exact absurd (by rw [← hp]; exact hcv) hvv
      · exact hrst
  · rw [hr endPos, if_neg (Ne.symm hne)]
    exact inv.goal

/-- The invariant holds on entry to the loop. -/
theorem Inv.initial (pq : PriorityQueue) (grid : Grid) (startPos endPos : Vector2i)
    (useAStar : Bool) :
    Inv grid startPos endPos useAStar (initialState pq startPos endPos).openSet
      (initialState pq startPos endPos).visited := by
  have hq : (initialState pq startPos endPos).openSet = [startNode startPos endPos] :=
    List.perm_singleton.mp (pq.push_perm [] _)
  have hv : ∀ p, readAt (initialState pq startPos endPos).visited p ≠ some true :=
    fun p => readAt_initial_ne_true p
  refine ⟨fun p hp => ⟨false, readAt_initial p hp⟩, ?_, ?_, ?_, fun hs => absurd hs (hv _), ?_,
    hv _⟩
  · intro n hn
    rw [hq] at hn
    simp only [List.mem_singleton] at hn
    subst hn
    exact Rooted.root _
  · intro n hn a ha
    rw [hq] at hn
    simp only [List.mem_singleton] at hn
    subst hn
    simp [startNode, chainToRoot] at ha
  · intro _
    exact ⟨_, hq, rfl, rfl⟩
  · intro u v hu
    exact absurd hu (hv u)

end Invariant

/-! ## The loop and the function as a whole -/

/-- From a state that satisfies the invariant, with fuel above the measure, the loop
returns a path, and that path meets `SearchPost`. -/
theorem searchLoop_spec (pq : PriorityQueue) (grid : Grid) (startPos endPos : Vector2i)
    (useAStar : Bool) (hg : gridOk grid) (hs : inBounds startPos) :
    ∀ (fuel : Nat) (st : SearchState),
      Inv grid startPos endPos useAStar st.openSet st.visited → measure st < fuel →
      ∃ p, (searchLoop pq grid endPos useAStar fuel st).outcome = .returned p ∧
        SearchPost grid startPos endPos p := by
  intro fuel
  induction fuel with
  | zero => intro st _ hm; exact absurd hm (Nat.not_lt_zero _)
  | succ fuel ih =>
    intro st inv hm
    simp only [searchLoop]
    cases hpop : pq.pop st.openSet with
    | none =>
      have hempty : st.openSet = [] := by
        cases hq : st.openSet with
        | nil => rfl
        | cons a q =>
          obtain ⟨t, r, htr⟩ := pq.pop_cons a q
          rw [hq, htr] at hpop
          simp at hpop
      refine ⟨[], rfl, Or.inl ⟨rfl, fun l w => ?_⟩⟩
      obtain ⟨n, hn, _⟩ := inv.witness w inv.goal
      rw [hempty] at hn
      simp at hn
    | some cr =>
      obtain ⟨c, rest⟩ := cr
      have hperm := pq.pop_perm _ c rest hpop
      have hcQ : c ∈ st.openSet := hperm.mem_iff.mp (List.mem_cons_self c rest)
      have hlen : rest.length + 1 = st.openSet.length := by
        have := hperm.length_eq
        simpa using this
      simp only
      by_cases he : c.pos = endPos
      · rw [if_pos he]
        refine ⟨_, rfl, Or.inr ⟨c, inv.rooted c hcQ, he, rfl, fun l w => ?_⟩⟩
        exact inv.pop_cost_le pq hpop (by rw [he]; exact w) (by rw [he]; exact inv.goal)
      · rw [if_neg he]
        obtain ⟨b, hb⟩ := inv.dom c.pos ((inv.rooted c hcQ).inBounds hs)
        rw [hb]
        cases b with
        | true =>
          simp only
          apply ih
          · exact inv.discard hperm hb
          · simp only [measure] at hm ⊢
            omega
        | false =>
          simp only
          have hcost : ∀ l : Nat, Walk grid startPos l c.pos → c.cost ≤ (l : Int) :=
            fun l w => inv.pop_cost_le pq hpop w (by rw [hb]; simp)
          obtain ⟨st3, h3⟩ := visitNeighbors_some pq grid endPos useAStar c (neighbors c.pos)
            { openSet := rest, visited := writeAt st.visited c.pos true,
              allocated := st.allocated, expanded := c :: st.expanded,
              gridReads := st.gridReads }
            (fun p hp => by
              obtain ⟨b0, hb0⟩ := inv.dom p hp
              simp only
              rw [readAt_writeAt st.visited c.pos p true false hb]
              by_cases e : p = c.pos
              · exact ⟨true, by rw [if_pos e]⟩
              · exact ⟨b0, by rw [if_neg e]; exact hb0⟩)
            (fun p hp => readAt_grid grid hg p hp)
          rw [h3]
          simp only
          obtain ⟨hv3, hl3, hm3⟩ := visitNeighbors_spec pq grid endPos useAStar c _ _ _ h3
          simp only at hv3 hl3 hm3
          apply ih
          · rw [hv3]
            exact inv.expand hperm hcost he hb st3.openSet hm3
          · have hcf := countFalse_writeAt st.visited c.pos hb
            simp only [measure, neighbors, List.length_cons, List.length_nil] at hm hl3 ⊢
            rw [hv3]
            omega

/-- On a well-formed grid and from an in-bounds start, `findPath` returns a path that
meets `SearchPost`; it neither indexes out of range nor runs out of fuel. -/
theorem findPath_spec (pq : PriorityQueue) (grid : Grid) (startPos endPos : Vector2i)
    (useAStar : Bool) (hg : gridOk grid) (hs : inBounds startPos) :
    ∃ p, findPath pq grid startPos endPos useAStar = .returned p ∧
      SearchPost grid startPos endPos p := by
  unfold findPath findPathRun
  by_cases hsent : startPos.x = -1 ∨ endPos.x = -1
  · rw [if_pos hsent]
    refine ⟨[], rfl, Or.inl ⟨rfl, fun l w => ?_⟩⟩
    have hex : endPos.x = -1 := by
      rcases hsent with h | h
      · have := hs.1; omega
      · exact h
    cases w with
    | here => have := hs.1; omega
    | step _ hm => have := hm.2.1.1; omega
  · rw [if_neg hsent]
    apply searchLoop_spec pq grid startPos endPos useAStar hg hs
    · exact Inv.initial pq grid startPos endPos useAStar
    · have hq : (initialState pq startPos endPos).openSet.length = 1 := by
        have := (pq.push_perm [] (startNode startPos endPos)).length_eq
        simpa [initialState] using this
      simp only [measure, hq]
      simp only [initialState, countFalse_initial, searchFuel]
      omega

/-! ## Consequences used by the claims -/

theorem reconstructPath_ne_nil (n : Node) : reconstructPath (some n) ≠ [] := by
  show (n.chain).reverse ≠ []
  rw [Node.chain_eq]
  simp

theorem PriorityQueue.pop_singleton (pq : PriorityQueue) (n : Node) :
    pq.pop [n] = some (n, []) := by
  obtain ⟨t, r, h⟩ := pq.pop_cons n []
  have hperm := pq.pop_perm _ t r h
  have hlen := hperm.length_eq
  simp only [List.length_cons, List.length_nil] at hlen
  have hr : r = [] := List.length_eq_zero.mp (by omega)
  subst hr
  have := List.perm_singleton.mp hperm
  simp only [List.cons.injEq, and_true] at this
  rw [h, this]

theorem readAt_allFree (grid : Grid) (hg : gridOk grid) (hf : allFree grid) (c : Vector2i)
    (hc : inBounds c) : readAt grid c = some 0 := by
  obtain ⟨v, hv⟩ := readAt_grid grid hg c hc
  obtain ⟨_, _, row, hrow, hcell⟩ := readAt_eq_some hv
  have h1 : row ∈ grid := List.getElem?_mem hrow
  have h2 : v ∈ row := List.getElem?_mem hcell
  rw [hv, hf row h1 v h2]

theorem walk_right (grid : Grid) (hg : gridOk grid) (hf : allFree grid) :
    ∀ i : Nat, (i : Int) < GRID_WIDTH → Walk grid ⟨0, 0⟩ i ⟨i, 0⟩ := by
  intro i
  induction i with
  | zero => intro _; exact Walk.here
  | succ i ih =>
    intro hi
    have hi2 : (i : Int) < GRID_WIDTH := by push_cast at hi; omega
    have hb : inBounds ⟨((i + 1 : Nat) : Int), 0⟩ := by
      simp only [inBounds, GRID_HEIGHT] at *
      omega
    refine Walk.step (ih hi2) ⟨?_, hb, readAt_allFree grid hg hf _ hb⟩
    simp only [isStep]
    push_cast
    omega

theorem walk_right_down (grid : Grid) (hg : gridOk grid) (hf : allFree grid) (i : Nat)
    (hi : (i : Int) < GRID_WIDTH) :
    ∀ j : Nat, (j : Int) < GRID_HEIGHT → Walk grid ⟨0, 0⟩ (i + j) ⟨i, j⟩ := by
  intro j
  induction j with
  | zero => intro _; exact walk_right grid hg hf i hi
  | succ j ih =>
    intro hj
    have hj2 : (j : Int) < GRID_HEIGHT := by push_cast at hj; omega
    have hb : inBounds ⟨(i : Int), ((j + 1 : Nat) : Int)⟩ := by
      simp only [inBounds] at *
      omega
    refine Walk.step (ih hj2) ⟨?_, hb, readAt_allFree grid hg hf _ hb⟩
    simp only [isStep]
    push_cast
    omega

/-- When a walk of Manhattan length exists, the returned path has that length plus one
cells. -/
theorem findPath_length_of_walk (pq : PriorityQueue) (grid : Grid) (startPos endPos : Vector2i)
    (useAStar : Bool) (hg : gridOk grid) (hs : inBounds startPos) (l : Nat)
    (w : Walk grid startPos l endPos) (hl : (l : Int) = heuristic startPos endPos) :
    ∃ p, findPath pq grid startPos endPos useAStar = .returned p ∧ p.length = l + 1 := by
  obtain ⟨p, hp, hpost⟩ := findPath_spec pq grid startPos endPos useAStar hg hs
  refine ⟨p, hp, ?_⟩
  rcases hpost with ⟨_, hno⟩ | ⟨n, hn, hpos, rfl, hopt⟩
  · exact absurd w (hno l)
  · have h1 := hopt l w
    obtain ⟨k, hk, wk⟩ := hn.walk
    rw [hpos] at wk
    have h2 := heuristic_walk grid wk
    have h3 := hn.path_length
    omega

theorem SearchPost.route_of_ne_nil {grid : Grid} {startPos endPos : Vector2i} {p : List Vector2i}
    (h : SearchPost grid startPos endPos p) (hne : p ≠ []) :
    isRoute grid startPos endPos p ∧ p.Nodup ∧
      ∀ q, isRoute grid startPos endPos q → p.length ≤ q.length := by
  rcases h with ⟨he, _⟩ | ⟨n, hn, hpos, rfl, hopt⟩
  · exact absurd he hne
  · refine ⟨by rw [← hpos]; exact hn.route, hn.path_nodup, fun q hq => ?_⟩
    obtain ⟨l, hl, w⟩ := Walk.of_route grid startPos endPos q hq
    have h1 := hopt l w
    have h2 := hn.path_length
    omega

theorem route_around_wall :
    isRoute wallGrid ⟨0, 0⟩ ⟨2, 0⟩ [⟨0, 0⟩, ⟨0, 1⟩, ⟨1, 1⟩, ⟨2, 1⟩, ⟨2, 0⟩] :=
  ⟨rfl, rfl, List.Chain.cons (by decide) (List.Chain.cons (by decide)
    (List.Chain.cons (by decide) (List.Chain.cons (by decide) List.Chain.nil)))⟩

/-- An iteration that pops a node on the end cell returns at once. -/
theorem searchLoop_goal_first (pq : PriorityQueue) (grid : Grid) (endPos : Vector2i)
    (useAStar : Bool) (fuel : Nat) (st : SearchState) (n : Node) (hq : st.openSet = [n])
    (hn : n.pos = endPos) :
    searchLoop pq grid endPos useAStar (fuel + 1) st
      = ⟨.returned (reconstructPath (some n)), { st with openSet := [] }⟩ := by
  simp only [searchLoop, hq, pq.pop_singleton, hn, if_true]

/-- A run of the embedding: around the wall cell `(1, 0)` both modes return the
five-cell path through row 1. -/
theorem findPath_wallGrid_eval :
    findPath listQueue wallGrid ⟨0, 0⟩ ⟨2, 0⟩ true
      = .returned [⟨0, 0⟩, ⟨0, 1⟩, ⟨1, 1⟩, ⟨2, 1⟩, ⟨2, 0⟩] ∧
    findPath listQueue wallGrid ⟨0, 0⟩ ⟨2, 0⟩ false
      = .returned [⟨0, 0⟩, ⟨0, 1⟩, ⟨1, 1⟩, ⟨2, 1⟩, ⟨2, 0⟩] := by
  decide

/-! ## The claims -/

/-- C1 (shortest path). For a well-formed grid and an in-bounds start cell, `findPath`
returns a path in either mode and for any end cell, and if that path is non-empty then
no route from the start to the end cell (orthogonal unit steps, every cell after the
start in bounds and free) has fewer cells than it. -/
theorem findPath_shortest (pq : PriorityQueue) (grid : Grid) (startPos endPos : Vector2i)
    (useAStar : Bool) (hg : gridOk grid) (hs : inBounds startPos) :
    ∃ p, findPath pq grid startPos endPos useAStar = .returned p ∧
      (p ≠ [] → ∀ q, isRoute grid startPos endPos q → p.length ≤ q.length) := by
  obtain ⟨p, hp, hpost⟩ := findPath_spec pq grid startPos endPos useAStar hg hs
  exact ⟨p, hp, fun hne => (hpost.route_of_ne_nil hne).2.2⟩

/-- Instance of C1 on the grid with a wall cell between start and end. -/
theorem findPath_shortest_witness :
    gridOk wallGrid ∧ inBounds ⟨0, 0⟩ ∧
    ∃ p, findPath listQueue wallGrid ⟨0, 0⟩ ⟨2, 0⟩ true = .returned p ∧
      (p ≠ [] → ∀ q, isRoute wallGrid ⟨0, 0⟩ ⟨2, 0⟩ q → p.length ≤ q.length) :=
  ⟨by decide, by decide,
    findPath_shortest listQueue wallGrid ⟨0, 0⟩ ⟨2, 0⟩ true (by decide) (by decide)⟩

/-- C2 (unreachable iff empty). For a well-formed grid and a free in-bounds start cell,
in either mode, `findPath` returns a path, and that path is empty exactly when no
sequence of orthogonal unit steps through in-bounds free cells leads from the start to
the end cell. -/
theorem findPath_empty_iff_unreachable (pq : PriorityQueue) (grid : Grid)
    (startPos endPos : Vector2i) (useAStar : Bool) (hg : gridOk grid)
    (hf : isFree grid startPos) :
    ∃ p, findPath pq grid startPos endPos useAStar = .returned p ∧
      (p = [] ↔ ¬ ∃ q, isRoute grid startPos endPos q ∧ ∀ c ∈ q, isFree grid c) := by
  obtain ⟨p, hp, hpost⟩ := findPath_spec pq grid startPos endPos useAStar hg hf.1
  refine ⟨p, hp, ?_, ?_⟩
  · rintro rfl ⟨q, hq, _⟩
    rcases hpost with ⟨_, hno⟩ | ⟨n, _, _, he, _⟩
    · obtain ⟨l, _, w⟩ := Walk.of_route grid startPos endPos q hq
      exact hno l w
    · exact reconstructPath_ne_nil n he.symm
  · intro hno
    by_contra hne
    have hr := (hpost.route_of_ne_nil hne).1
    refine hno ⟨p, hr, fun c hc => ?_⟩
    cases p with
    | nil => exact absurd rfl hne
    | cons a rest =>
      rcases List.mem_cons.mp hc with rfl | hc
      · have := hr.1
        simp only [List.head?_cons, Option.some.injEq] at this
        rw [this]
        exact hf
      · exact chain_tail_free grid _ hr.2.2 c hc

/-- Instance of C2 with the start cell `(0, 0)` and the end on the wall cell `(1, 0)`. -/
theorem findPath_empty_iff_unreachable_witness :
    gridOk wallGrid ∧ isFree wallGrid ⟨0, 0⟩ ∧
    ∃ p, findPath listQueue wallGrid ⟨0, 0⟩ ⟨1, 0⟩ false = .returned p ∧
      (p = [] ↔ ¬ ∃ q, isRoute wallGrid ⟨0, 0⟩ ⟨1, 0⟩ q ∧ ∀ c ∈ q, isFree wallGrid c) :=
  ⟨by decide, by decide,
    findPath_empty_iff_unreachable listQueue wallGrid ⟨0, 0⟩ ⟨1, 0⟩ false (by decide)
      (by decide)⟩

/-- C3 (mode equivalence on cost). For a well-formed grid and an in-bounds start cell
from which some route leads to the end cell, `findPath` with `useAStar = true` and
`findPath` with `useAStar = false` both return non-empty paths, and the two paths have
the same number of cells, whatever queue implementation each run uses. -/
theorem findPath_modes_same_length (pq1 pq2 : PriorityQueue) (grid : Grid)
    (startPos endPos : Vector2i) (hg : gridOk grid) (hs : inBounds startPos)
    (hr : ∃ q, isRoute grid startPos endPos q) :
    ∃ p1 p2, findPath pq1 grid startPos endPos true = .returned p1 ∧
      findPath pq2 grid startPos endPos false = .returned p2 ∧
      p1 ≠ [] ∧ p2 ≠ [] ∧ p1.length = p2.length := by
  obtain ⟨q, hq⟩ := hr
  obtain ⟨l, _, w⟩ := Walk.of_route grid startPos endPos q hq
  obtain ⟨p1, hp1, hpost1⟩ := findPath_spec pq1 grid startPos endPos true hg hs
  obtain ⟨p2, hp2, hpost2⟩ := findPath_spec pq2 grid startPos endPos false hg hs
  have hne1 : p1 ≠ [] := by
    rcases hpost1 with ⟨_, hno⟩ | ⟨n, _, _, he, _⟩
    · exact absurd w (hno l)
    · rw [he]; exact reconstructPath_ne_nil n
  have hne2 : p2 ≠ [] := by
    rcases hpost2 with ⟨_, hno⟩ | ⟨n, _, _, he, _⟩
    · exact absurd w (hno l)
    · rw [he]; exact reconstructPath_ne_nil n
  obtain ⟨hr1, _, ho1⟩ := hpost1.route_of_ne_nil hne1
  obtain ⟨hr2, _, ho2⟩ := hpost2.route_of_ne_nil hne2
  exact ⟨p1, p2, hp1, hp2, hne1, hne2, Nat.le_antisymm (ho1 p2 hr2) (ho2 p1 hr1)⟩

/-- Instance of C3 around the wall cell, with the route `(0,0), (0,1), (1,1), (2,1), (2,0)`. -/
theorem findPath_modes_same_length_witness :
    gridOk wallGrid ∧ inBounds ⟨0, 0⟩ ∧ (∃ q, isRoute wallGrid ⟨0, 0⟩ ⟨2, 0⟩ q) ∧
    ∃ p1 p2, findPath listQueue wallGrid ⟨0, 0⟩ ⟨2, 0⟩ true = .returned p1 ∧
      findPath listQueue wallGrid ⟨0, 0⟩ ⟨2, 0⟩ false = .returned p2 ∧
      p1 ≠ [] ∧ p2 ≠ [] ∧ p1.length = p2.length :=
  ⟨by decide, by decide, ⟨_, route_around_wall⟩,
    findPath_modes_same_length listQueue listQueue wallGrid ⟨0, 0⟩ ⟨2, 0⟩ (by decide)
      (by decide) ⟨_, route_around_wall⟩⟩

/-- C4 (start equals end). For every grid, every in-bounds cell `c` and either mode,
`findPath` with `startPos = endPos = c` returns exactly `[c]`, and it returns with the
matrix `visited` still all false, with no node expanded, with the start node the only
node ever created, and with no grid cell read. -/
theorem findPath_start_eq_end (pq : PriorityQueue) (grid : Grid) (c : Vector2i)
    (useAStar : Bool) (hc : inBounds c) :
    findPath pq grid c c useAStar = .returned [c] ∧
    (findPathRun pq grid c c useAStar).final.visited
      = List.replicate GRID_HEIGHT.toNat (List.replicate GRID_WIDTH.toNat false) ∧
    (findPathRun pq grid c c useAStar).final.expanded = [] ∧
    (findPathRun pq grid c c useAStar).final.allocated = [startNode c c] ∧
    (findPathRun pq grid c c useAStar).final.gridReads = [] := by
  have hsent : ¬ (c.x = -1 ∨ c.x = -1) := by
    have := hc.1
    omega
  have hq : pq.push [] (startNode c c) = [startNode c c] :=
    List.perm_singleton.mp (pq.push_perm [] _)
  have hfuel : searchFuel = 901 + 1 := by decide
  have hrun : findPathRun pq grid c c useAStar =
      ⟨.returned [c],
        { openSet := []
          visited := List.replicate GRID_HEIGHT.toNat (List.replicate GRID_WIDTH.toNat false)
          allocated := [startNode c c]
          expanded := []
          gridReads := [] }⟩ := by
    unfold findPathRun
    rw [if_neg hsent, hfuel,
      searchLoop_goal_first pq grid c useAStar 901 _ (startNode c c) hq rfl]
    rfl
  unfold findPath
  rw [hrun]
  exact ⟨rfl, rfl, rfl, rfl, rfl⟩

/-- Instance of C4 on the blocked corner cell of a grid. -/
theorem findPath_start_eq_end_witness :
    inBounds ⟨0, 0⟩ ∧
    findPath listQueue cornerBlockedGrid ⟨0, 0⟩ ⟨0, 0⟩ true = .returned [⟨0, 0⟩] ∧
    (findPathRun listQueue cornerBlockedGrid ⟨0, 0⟩ ⟨0, 0⟩ true).final.visited
      = List.replicate GRID_HEIGHT.toNat (List.replicate GRID_WIDTH.toNat false) ∧
    (findPathRun listQueue cornerBlockedGrid ⟨0, 0⟩ ⟨0, 0⟩ true).final.expanded = [] ∧
    (findPathRun listQueue cornerBlockedGrid ⟨0, 0⟩ ⟨0, 0⟩ true).final.allocated
      = [startNode ⟨0, 0⟩ ⟨0, 0⟩] ∧
    (findPathRun listQueue cornerBlockedGrid ⟨0, 0⟩ ⟨0, 0⟩ true).final.gridReads = [] :=
  ⟨by decide, findPath_start_eq_end listQueue cornerBlockedGrid ⟨0, 0⟩ true (by decide)⟩

/-- C5 (unset inputs). For every grid and either mode, if `startPos` or `endPos` is the
unset sentinel `(-1, -1)`, `findPath` returns the empty path, and it returns before
any node is created, any cell is expanded or any grid cell is read. -/
theorem findPath_unset (pq : PriorityQueue) (grid : Grid) (startPos endPos : Vector2i)
    (useAStar : Bool) (h : startPos = ⟨-1, -1⟩ ∨ endPos = ⟨-1, -1⟩) :
    findPath pq grid startPos endPos useAStar = .returned [] ∧
    (findPathRun pq grid startPos endPos useAStar).final.allocated = [] ∧
    (findPathRun pq grid startPos endPos useAStar).final.openSet = [] ∧
    (findPathRun pq grid startPos endPos useAStar).final.expanded = [] ∧
    (findPathRun pq grid startPos endPos useAStar).final.gridReads = [] := by
  have hsent : startPos.x = -1 ∨ endPos.x = -1 := by
    rcases h with h | h
    · exact Or.inl (by rw [h])
    · exact Or.inr (by rw [h])
  have hrun : findPathRun pq grid startPos endPos useAStar
      = ⟨.returned [], SearchState.empty⟩ := by
    unfold findPathRun
    rw [if_pos hsent]
  unfold findPath
  rw [hrun]
  exact ⟨rfl, rfl, rfl, rfl, rfl⟩

/-- Instance of C5 with a set start cell and an unset end cell. -/
theorem findPath_unset_witness :
    ((⟨3, 4⟩ : Vector2i) = ⟨-1, -1⟩ ∨ (⟨-1, -1⟩ : Vector2i) = ⟨-1, -1⟩) ∧
    findPath listQueue freeGrid ⟨3, 4⟩ ⟨-1, -1⟩ false = .returned [] ∧
    (findPathRun listQueue freeGrid ⟨3, 4⟩ ⟨-1, -1⟩ false).final.allocated = [] ∧
    (findPathRun listQueue freeGrid ⟨3, 4⟩ ⟨-1, -1⟩ false).final.openSet = [] ∧
    (findPathRun listQueue freeGrid ⟨3, 4⟩ ⟨-1, -1⟩ false).final.expanded = [] ∧
    (findPathRun listQueue freeGrid ⟨3, 4⟩ ⟨-1, -1⟩ false).final.gridReads = [] :=
  ⟨Or.inr rfl, findPath_unset listQueue freeGrid ⟨3, 4⟩ ⟨-1, -1⟩ false (Or.inr rfl)⟩

/-- C6 (path endpoints and order). For a well-formed grid and an in-bounds start cell,
any end cell and either mode, `findPath` returns a path, and if the path is non-empty
it is the reversed parent chain of a node on the end cell, its first element is
`startPos` and its last element is `endPos`. -/
theorem findPath_endpoints (pq : PriorityQueue) (grid : Grid) (startPos endPos : Vector2i)
    (useAStar : Bool) (hg : gridOk grid) (hs : inBounds startPos) :
    ∃ p, findPath pq grid startPos endPos useAStar = .returned p ∧
      (p ≠ [] → (∃ n : Node, n.pos = endPos ∧ p = (chainToRoot (some n)).reverse) ∧
        p.head? = some startPos ∧ p.getLast? = some endPos) := by
  obtain ⟨p, hp, hpost⟩ := findPath_spec pq grid startPos endPos useAStar hg hs
  refine ⟨p, hp, fun hne => ?_⟩
  have hr := (hpost.route_of_ne_nil hne).1
  rcases hpost with ⟨he, _⟩ | ⟨n, _, hpos, he, _⟩
  · exact absurd he hne
  · exact ⟨⟨n, hpos, he⟩, hr.1, hr.2.1⟩

/-- Instance of C6 on the grid with a wall cell between start and end. -/
theorem findPath_endpoints_witness :
    gridOk wallGrid ∧ inBounds ⟨0, 0⟩ ∧
    ∃ p, findPath listQueue wallGrid ⟨0, 0⟩ ⟨2, 0⟩ false = .returned p ∧
      (p ≠ [] → (∃ n : Node, n.pos = ⟨2, 0⟩ ∧ p = (chainToRoot (some n)).reverse) ∧
        p.head? = some ⟨0, 0⟩ ∧ p.getLast? = some ⟨2, 0⟩) :=
  ⟨by decide, by decide,
    findPath_endpoints listQueue wallGrid ⟨0, 0⟩ ⟨2, 0⟩ false (by decide) (by decide)⟩

/-- C7 (contiguity). For a well-formed grid and an in-bounds start cell, any end cell
and either mode, `findPath` returns a path in which every two consecutive cells differ
by exactly one orthogonal unit step. -/
theorem findPath_contiguous (pq : PriorityQueue) (grid : Grid) (startPos endPos : Vector2i)
    (useAStar : Bool) (hg : gridOk grid) (hs : inBounds startPos) :
    ∃ p, findPath pq grid startPos endPos useAStar = .returned p ∧ List.Chain' isStep p := by
  obtain ⟨p, hp, hpost⟩ := findPath_spec pq grid startPos endPos useAStar hg hs
  refine ⟨p, hp, ?_⟩
  by_cases hne : p = []
  · rw [hne]; exact List.chain'_nil
  · exact chain_steps grid p (hpost.route_of_ne_nil hne).1.2.2

/-- Instance of C7 on the grid with a wall cell between start and end. -/
theorem findPath_contiguous_witness :
    gridOk wallGrid ∧ inBounds ⟨0, 0⟩ ∧
    ∃ p, findPath listQueue wallGrid ⟨0, 0⟩ ⟨2, 0⟩ true = .returned p ∧
      List.Chain' isStep p :=
  ⟨by decide, by decide,
    findPath_contiguous listQueue wallGrid ⟨0, 0⟩ ⟨2, 0⟩ true (by decide) (by decide)⟩

/-- C8, as the code has it. For a well-formed grid and an in-bounds start cell, any end
cell and either mode, `findPath` returns a path whose cells after the first are all in
bounds with grid value `0`, hence not blocked. The first cell, `startPos`, is pushed
without a look at the grid. -/
theorem findPath_tail_not_blocked (pq : PriorityQueue) (grid : Grid)
    (startPos endPos : Vector2i) (useAStar : Bool) (hg : gridOk grid)
    (hs : inBounds startPos) :
    ∃ p, findPath pq grid startPos endPos useAStar = .returned p ∧
      ∀ c ∈ p.tail, isFree grid c ∧ ¬ isBlocked grid c := by
  obtain ⟨p, hp, hpost⟩ := findPath_spec pq grid startPos endPos useAStar hg hs
  refine ⟨p, hp, fun c hc => ?_⟩
  by_cases hne : p = []
  · rw [hne] at hc; simp at hc
  · have hf := chain_tail_free grid p (hpost.route_of_ne_nil hne).1.2.2 c hc
    refine ⟨hf, fun hb => ?_⟩
    have h0 := hf.2
    unfold isBlocked at hb
    rw [h0] at hb
    simp at hb

/-- Instance of the amended C8 with the start on the blocked corner cell. -/
theorem findPath_tail_not_blocked_witness :
    gridOk cornerBlockedGrid ∧ inBounds ⟨0, 0⟩ ∧
    ∃ p, findPath listQueue cornerBlockedGrid ⟨0, 0⟩ ⟨1, 1⟩ false = .returned p ∧
      ∀ c ∈ p.tail, isFree cornerBlockedGrid c ∧ ¬ isBlocked cornerBlockedGrid c :=
  ⟨by decide, by decide,
    findPath_tail_not_blocked listQueue cornerBlockedGrid ⟨0, 0⟩ ⟨1, 1⟩ false (by decide)
      (by decide)⟩

/-- C8 as stated fails. On the well-formed grid whose only blocked cell is `(0, 0)`, with
the in-bounds start `(0, 0)` and the end `(1, 0)` in heuristic mode, `findPath` returns
the path `(0, 0), (1, 0)`, and its first cell has `grid[0][0] == 1`. -/
theorem findPath_blocked_start_counterexample :
    gridOk cornerBlockedGrid ∧ inBounds ⟨0, 0⟩ ∧
    findPath listQueue cornerBlockedGrid ⟨0, 0⟩ ⟨1, 0⟩ true = .returned [⟨0, 0⟩, ⟨1, 0⟩] ∧
    (⟨0, 0⟩ : Vector2i) ∈ [(⟨0, 0⟩ : Vector2i), ⟨1, 0⟩] ∧
    isBlocked cornerBlockedGrid ⟨0, 0⟩ := by
  decide

/-- C9 (no duplicate cell). For a well-formed grid and an in-bounds start cell, any end
cell and either mode, `findPath` returns a path in which no cell occurs twice. -/
theorem findPath_nodup (pq : PriorityQueue) (grid : Grid) (startPos endPos : Vector2i)
    (useAStar : Bool) (hg : gridOk grid) (hs : inBounds startPos) :
    ∃ p, findPath pq grid startPos endPos useAStar = .returned p ∧ p.Nodup := by
  obtain ⟨p, hp, hpost⟩ := findPath_spec pq grid startPos endPos useAStar hg hs
  refine ⟨p, hp, ?_⟩
  by_cases hne : p = []
  · rw [hne]; exact List.nodup_nil
  · exact (hpost.route_of_ne_nil hne).2.1

/-- Instance of C9 on the grid with a wall cell between start and end. -/
theorem findPath_nodup_witness :
    gridOk wallGrid ∧ inBounds ⟨0, 0⟩ ∧
    ∃ p, findPath listQueue wallGrid ⟨0, 0⟩ ⟨2, 0⟩ false = .returned p ∧ p.Nodup :=
  ⟨by decide, by decide,
    findPath_nodup listQueue wallGrid ⟨0, 0⟩ ⟨2, 0⟩ false (by decide) (by decide)⟩

/-- C10 (optimality on the obstacle-free grid). On a well-formed grid with every cell
free, `findPath` from `(0, 0)` to `(GRID_WIDTH - 1, GRID_HEIGHT - 1)` returns, in both
modes, a path of exactly `GRID_WIDTH + GRID_HEIGHT - 1` cells, that is
`(GRID_WIDTH - 1) + (GRID_HEIGHT - 1)` steps; and from `(0, 0)` to `(4, 4)` in heuristic
mode it returns a path of exactly 9 cells. -/
theorem findPath_free_grid (pq : PriorityQueue) (grid : Grid) (useAStar : Bool)
    (hg : gridOk grid) (hf : allFree grid) :
    (∃ p, findPath pq grid ⟨0, 0⟩ ⟨GRID_WIDTH - 1, GRID_HEIGHT - 1⟩ useAStar = .returned p ∧
      (p.length : Int) = GRID_WIDTH + GRID_HEIGHT - 1 ∧
      (p.length : Int) - 1 = (GRID_WIDTH - 1) + (GRID_HEIGHT - 1)) ∧
    (∃ p, findPath pq grid ⟨0, 0⟩ ⟨4, 4⟩ true = .returned p ∧ p.length = 9) := by
  have h0 : inBounds ⟨0, 0⟩ := by decide
  constructor
  · have w := walk_right_down grid hg hf 14 (by decide) 14 (by decide)
    obtain ⟨p, hp, hlen⟩ := findPath_length_of_walk pq grid ⟨0, 0⟩ ⟨14, 14⟩ useAStar hg h0
      (14 + 14) w (by decide)
    refine ⟨p, hp, ?_, ?_⟩
    · rw [hlen]; decide
    · rw [hlen]; decide
  · have w := walk_right_down grid hg hf 4 (by decide) 4 (by decide)
    exact findPath_length_of_walk pq grid ⟨0, 0⟩ ⟨4, 4⟩ true hg h0 (4 + 4) w (by decide)

/-- Instance of C10 on the all-free grid, in uniform-cost mode. -/
theorem findPath_free_grid_witness :
    gridOk freeGrid ∧ allFree freeGrid ∧
    (∃ p, findPath listQueue freeGrid ⟨0, 0⟩ ⟨GRID_WIDTH - 1, GRID_HEIGHT - 1⟩ false
        = .returned p ∧
      (p.length : Int) = GRID_WIDTH + GRID_HEIGHT - 1 ∧
      (p.length : Int) - 1 = (GRID_WIDTH - 1) + (GRID_HEIGHT - 1)) ∧
    (∃ p, findPath listQueue freeGrid ⟨0, 0⟩ ⟨4, 4⟩ true = .returned p ∧ p.length = 9) :=
  ⟨by decide, by decide, findPath_free_grid listQueue freeGrid false (by decide) (by decide)⟩

/-! ## The observation logs -/

/-- Effect of one pass of the neighbour loop on the observation logs. -/
theorem visitNeighbor_logs (pq : PriorityQueue) (grid : Grid) (endPos : Vector2i)
    (useAStar : Bool) (current : Node) (st st1 : SearchState) (n : Vector2i)
    (h : visitNeighbor pq grid endPos useAStar current st n = some st1) :
    st1.expanded = st.expanded ∧
    (∀ c ∈ st1.gridReads, c ∈ st.gridReads ∨ (inBounds c ∧ readAt st.visited c = some false)) ∧
    ((admissible st.visited grid n ∧
        st1.allocated = childNode endPos useAStar current n :: st.allocated) ∨
     (¬ admissible st.visited grid n ∧ st1.allocated = st.allocated)) := by
  unfold visitNeighbor at h
  by_cases hb : inBounds n
  · rw [if_pos hb] at h
    cases hv : readAt st.visited n with
    | none => rw [hv] at h; simp at h
    | some b =>
      rw [hv] at h
      cases b with
      | true =>
        simp only [Option.some.injEq] at h
        subst h
        exact ⟨rfl, fun c hc => Or.inl hc,
          Or.inr ⟨fun ha => by rw [ha.2.1] at hv; simp at hv, rfl⟩⟩
      | false =>
        simp only at h
        cases hg : readAt grid n with
        | none => rw [hg] at h; simp at h
        | some cell =>
          rw [hg] at h
          simp only at h
          have hreads : ∀ c ∈ n :: st.gridReads,
              c ∈ st.gridReads ∨ (inBounds c ∧ readAt st.visited c = some false) := by
            intro c hc
            rcases List.mem_cons.mp hc with rfl | hc
            · exact Or.inr ⟨hb, hv⟩
            · exact Or.inl hc
          by_cases hc : cell = 0
          · rw [if_pos hc] at h
            simp only [Option.some.injEq] at h
            subst h
            subst hc
            exact ⟨rfl, hreads, Or.inl ⟨⟨hb, hv, hg⟩, rfl⟩⟩
          · rw [if_neg hc] at h
            simp only [Option.some.injEq] at h
            subst h
            refine ⟨rfl, hreads, Or.inr ⟨fun ha => ?_, rfl⟩⟩
            rw [ha.2.2] at hg
            simp only [Option.some.injEq] at hg
            exact hc hg.symm
  · rw [if_neg hb] at h
    simp only [Option.some.injEq] at h
    subst h
    exact ⟨rfl, fun c hc => Or.inl hc, Or.inr ⟨fun ha => hb ha.1, rfl⟩⟩

/-- Effect of the neighbour loop on the observation logs. -/
theorem visitNeighbors_logs (pq : PriorityQueue) (grid : Grid) (endPos : Vector2i)
    (useAStar : Bool) (current : Node) : ∀ (ns : List Vector2i) (st st1 : SearchState),
    visitNeighbors pq grid endPos useAStar current ns st = some st1 →
    st1.expanded = st.expanded ∧
    st1.allocated.length ≤ st.allocated.length + ns.length ∧
    (∀ c ∈ st1.gridReads, c ∈ st.gridReads ∨ (inBounds c ∧ readAt st.visited c = some false)) ∧
    ∀ m, m ∈ st1.allocated ↔
      (m ∈ st.allocated ∨
        ∃ n ∈ ns, admissible st.visited grid n ∧ m = childNode endPos useAStar current n) := by
  intro ns
  induction ns with
  | nil =>
    intro st st1 h
    simp only [visitNeighbors, Option.some.injEq] at h
    subst h
    refine ⟨rfl, by simp, fun c hc => Or.inl hc, ?_⟩
    simp
  | cons n ns ih =>
    intro st st1 h
    simp only [visitNeighbors] at h
    cases h1 : visitNeighbor pq grid endPos useAStar current st n with
    | none => rw [h1] at h; simp at h
    | some st2 =>
      rw [h1] at h
      simp only at h
      have hv2 := (visitNeighbor_spec pq grid endPos useAStar current st st2 n h1).1
      obtain ⟨he2, hr2, ha2⟩ := visitNeighbor_logs pq grid endPos useAStar current st st2 n h1
      obtain ⟨he1, hlen, hr1, hmem⟩ := ih st2 st1 h
      refine ⟨he1.trans he2, ?_, ?_, ?_⟩
      · rcases ha2 with ⟨_, ha⟩ | ⟨_, ha⟩
        · rw [ha] at hlen
          simp only [List.length_cons] at hlen ⊢
          omega
        · rw [ha] at hlen
          simp only [List.length_cons]
          omega
      · intro c hc
        rcases hr1 c hc with hc2 | hc2
        · exact hr2 c hc2
        · rw [hv2] at hc2
          exact Or.inr hc2
      · intro m
        rw [hmem m, hv2]
        rcases ha2 with ⟨ha, hp⟩ | ⟨hna, he⟩
        · rw [hp]
          simp only [List.mem_cons, exists_eq_or_imp]
          constructor
          · rintro ((rfl | hm) | hx)
            · exact Or.inr (Or.inl ⟨ha, rfl⟩)
            · exact Or.inl hm
            · exact Or.inr (Or.inr hx)
          · rintro (hm | ⟨_, rfl⟩ | hx)
            · exact Or.inl (Or.inr hm)
            · exact Or.inl (Or.inl rfl)
            · exact Or.inr hx
        · rw [he]
          simp only [List.mem_cons, exists_eq_or_imp]
          constructor
          · rintro (hm | hx)
            · exact Or.inl hm
            · exact Or.inr (Or.inr hx)
          · rintro (hm | ⟨ha, _⟩ | hx)
            · exact Or.inl hm
            · exact absurd ha hna
            · exact Or.inr hx

/-- Induction over the run of the loop: a property `P` of the search state that holds on
entry and survives a discarded pop and an expansion holds in the last state of the run,
and the run ends there by returning. -/
theorem searchLoop_endsFrom (pq : PriorityQueue) (grid : Grid) (startPos endPos : Vector2i)
    (useAStar : Bool) (hg : gridOk grid) (hs : inBounds startPos) (P : SearchState → Prop)
    (hdisc : ∀ (st : SearchState) (c : Node) (rest : List Node),
      Inv grid startPos endPos useAStar st.openSet st.visited → P st →
      pq.pop st.openSet = some (c, rest) → readAt st.visited c.pos = some true →
      P ⟨rest, st.visited, st.allocated, st.expanded, st.gridReads⟩)
    (hexp : ∀ (st : SearchState) (c : Node) (rest : List Node) (st3 : SearchState),
      Inv grid startPos endPos useAStar st.openSet st.visited → P st →
      pq.pop st.openSet = some (c, rest) → c.pos ≠ endPos →
      readAt st.visited c.pos = some false →
      visitNeighbors pq grid endPos useAStar c (neighbors c.pos)
        ⟨rest, writeAt st.visited c.pos true, st.allocated, c :: st.expanded, st.gridReads⟩
        = some st3 →
      Inv grid startPos endPos useAStar st3.openSet st3.visited → P st3) :
    ∀ (fuel : Nat) (st : SearchState),
      Inv grid startPos endPos useAStar st.openSet st.visited → P st → measure st < fuel →
      EndsFrom pq grid startPos endPos useAStar P
        (searchLoop pq grid endPos useAStar fuel st) := by
  intro fuel
  induction fuel with
  | zero => intro st _ _ hm; exact absurd hm (Nat.not_lt_zero _)
  | succ fuel ih =>
    intro st inv hP hm
    simp only [searchLoop]
    cases hpop : pq.pop st.openSet with
    | none => exact ⟨st, inv, hP, Or.inl ⟨hpop, rfl⟩⟩
    | some cr =>
      obtain ⟨c, rest⟩ := cr
      have hperm := pq.pop_perm _ c rest hpop
      have hcQ : c ∈ st.openSet := hperm.mem_iff.mp (List.mem_cons_self c rest)
      have hlen : rest.length + 1 = st.openSet.length := by
        have := hperm.length_eq
        simpa using this
      simp only
      by_cases he : c.pos = endPos
      · rw [if_pos he]
        exact ⟨st, inv, hP, Or.inr ⟨c, rest, hpop, he, rfl⟩⟩
      · rw [if_neg he]
        obtain ⟨b, hb⟩ := inv.dom c.pos ((inv.rooted c hcQ).inBounds hs)
        rw [hb]
        cases b with
        | true =>
          simp only
          apply ih
          · exact inv.discard hperm hb
          · exact hdisc st c rest inv hP hpop hb
          · simp only [measure] at hm ⊢
            omega
        | false =>
          simp only
          have hcost : ∀ l : Nat, Walk grid startPos l c.pos → c.cost ≤ (l : Int) :=
            fun l w => inv.pop_cost_le pq hpop w (by rw [hb]; simp)
          obtain ⟨st3, h3⟩ := visitNeighbors_some pq grid endPos useAStar c (neighbors c.pos)
            { openSet := rest, visited := writeAt st.visited c.pos true,
              allocated := st.allocated, expanded := c :: st.expanded,
              gridReads := st.gridReads }
            (fun p hp => by
              obtain ⟨b0, hb0⟩ := inv.dom p hp
              simp only
              rw [readAt_writeAt st.visited c.pos p true false hb]
              by_cases e : p = c.pos
              · exact ⟨true, by rw [if_pos e]⟩
              · exact ⟨b0, by rw [if_neg e]; exact hb0⟩)
            (fun p hp => readAt_grid grid hg p hp)
          rw [h3]
          simp only
          obtain ⟨hv3, hl3, hm3⟩ := visitNeighbors_spec pq grid endPos useAStar c _ _ _ h3
          simp only at hv3 hl3 hm3
          have inv3 : Inv grid startPos endPos useAStar st3.openSet st3.visited := by
            rw [hv3]
            exact inv.expand hperm hcost he hb st3.openSet hm3
          apply ih
          · exact inv3
          · exact hexp st c rest st3 inv hP hpop he hb h3 inv3
          · have hcf := countFalse_writeAt st.visited c.pos hb
            simp only [measure, neighbors, List.length_cons, List.length_nil] at hm hl3 ⊢
            rw [hv3]
            omega

/-- The log invariant holds on entry to the loop. -/
theorem LogInv.log_initial (pq : PriorityQueue) (grid : Grid) (startPos endPos : Vector2i)
    (useAStar : Bool) :
    LogInv grid startPos endPos useAStar (initialState pq startPos endPos) := by
  have hq : (initialState pq startPos endPos).openSet = [startNode startPos endPos] :=
    List.perm_singleton.mp (pq.push_perm [] _)
  refine ⟨List.nodup_nil, ?_, ?_, ?_, ?_, ?_, ?_, ?_, ?_, ?_, ?_⟩
  · intro n hn; simp [initialState] at hn
  · simp only [initialState, countFalse_initial, List.length_nil]; omega
  · simp [initialState]
  · intro n hn
    rw [hq] at hn
    simpa [initialState] using hn
  · intro n hn; simp [initialState] at hn
  · intro n hn
    simp only [initialState, List.mem_singleton] at hn
    subst hn
    exact Rooted.root _
  · intro n hn
    simp only [initialState, List.mem_singleton] at hn
    exact Or.inl hn
  · simp [initialState]
  · intro n hn; simp [initialState] at hn
  · intro c hc; simp [initialState] at hc

/-- The log invariant survives the removal of queue entries. -/
theorem LogInv.log_discard {grid : Grid} {startPos endPos : Vector2i} {useAStar : Bool}
    {st : SearchState} (log : LogInv grid startPos endPos useAStar st) (rest : List Node)
    (hsub : ∀ m, m ∈ rest → m ∈ st.openSet) :
    LogInv grid startPos endPos useAStar
      ⟨rest, st.visited, st.allocated, st.expanded, st.gridReads⟩ :=
  ⟨log.exp_nodup, log.exp_visited, log.exp_count, log.alloc_count,
    fun n hn => log.open_alloc n (hsub n hn), log.exp_alloc, log.alloc_rooted,
    log.alloc_parent, log.start_alloc, log.exp_opt, log.reads⟩

/-- The log invariant survives an expansion. -/
theorem LogInv.log_expand (pq : PriorityQueue) {grid : Grid} {startPos endPos : Vector2i}
    {useAStar : Bool} {st st3 : SearchState} {c : Node} {rest : List Node}
    (inv : Inv grid startPos endPos useAStar st.openSet st.visited)
    (log : LogInv grid startPos endPos useAStar st)
    (hpop : pq.pop st.openSet = some (c, rest))
    (hb : readAt st.visited c.pos = some false)
    (h3 : visitNeighbors pq grid endPos useAStar c (neighbors c.pos)
      ⟨rest, writeAt st.visited c.pos true, st.allocated, c :: st.expanded, st.gridReads⟩
      = some st3)
    (inv3 : Inv grid startPos endPos useAStar st3.openSet st3.visited) :
    LogInv grid startPos endPos useAStar st3 := by
  have hperm := pq.pop_perm _ c rest hpop
  have hsub : ∀ m, m ∈ rest → m ∈ st.openSet :=
    fun m hm => hperm.mem_iff.mp (List.mem_cons_of_mem c hm)
  have hcQ : c ∈ st.openSet := hperm.mem_iff.mp (List.mem_cons_self c rest)
  obtain ⟨hv3, _, hm3⟩ := visitNeighbors_spec pq grid endPos useAStar c _ _ _ h3
  obtain ⟨he3, hal, hr3, hma⟩ := visitNeighbors_logs pq grid endPos useAStar c _ _ _ h3
  simp only at hv3 hm3 he3 hal hr3 hma
  have hr : ∀ p, readAt (writeAt st.visited c.pos true) p
      = if p = c.pos then some true else readAt st.visited p :=
    fun p => readAt_writeAt st.visited c.pos p true false hb
  have mono : ∀ a, readAt st.visited a = some true →
      readAt (writeAt st.visited c.pos true) a = some true := by
    intro a ha
    rw [hr a]
    by_cases e : a = c.pos
    · rw [if_pos e]
    · rw [if_neg e]; exact ha
  have hcv : readAt (writeAt st.visited c.pos true) c.pos = some true := by
    rw [hr, if_pos rfl]
  have hstart : readAt (writeAt st.visited c.pos true) startPos = some true := by
    by_cases hs : readAt st.visited startPos = some true
    · exact mono _ hs
    · obtain ⟨n0, hq, hp, _⟩ := inv.fresh hs
      rw [hq] at hcQ
      simp only [List.mem_singleton] at hcQ
      rw [← hp, ← hcQ]
      exact hcv
  have hcost : ∀ l : Nat, Walk grid startPos l c.pos → c.cost ≤ (l : Int) :=
    fun l w => inv.pop_cost_le pq hpop w (by rw [hb]; simp)
  refine ⟨?_, ?_, ?_, ?_, ?_, ?_, ?_, ?_, ?_, ?_, ?_⟩
  · rw [he3, List.map_cons, List.nodup_cons]
    refine ⟨fun hmem => ?_, log.exp_nodup⟩
    obtain ⟨e, he, hpe⟩ := List.mem_map.mp hmem
    have := log.exp_visited e he
    rw [hpe, hb] at this
    simp at this
  · intro n hn
    rw [he3] at hn
    rw [hv3]
    rcases List.mem_cons.mp hn with rfl | hn
    · exact hcv
    · exact mono _ (log.exp_visited n hn)
  · rw [he3, hv3]
    have := countFalse_writeAt st.visited c.pos hb
    have := log.exp_count
    simp only [List.length_cons]
    omega
  · rw [he3]
    have := log.alloc_count
    simp only [neighbors, List.length_cons, List.length_nil] at hal ⊢
    omega
  · intro n hn
    rcases (hm3 n).mp hn with hn | hx
    · exact (hma n).mpr (Or.inl (log.open_alloc n (hsub n hn)))
    · exact (hma n).mpr (Or.inr hx)
  · intro n hn
    rw [he3] at hn
    rcases List.mem_cons.mp hn with rfl | hn
    · exact (hma _).mpr (Or.inl (log.open_alloc _ hcQ))
    · exact (hma n).mpr (Or.inl (log.exp_alloc n hn))
  · intro n hn
    rcases (hma n).mp hn with hn | hx
    · exact log.alloc_rooted n hn
    · exact inv3.rooted n ((hm3 n).mpr (Or.inr hx))
  · intro n hn
    rw [he3]
    rcases (hma n).mp hn with hn | ⟨v, _, _, rfl⟩
    · rcases log.alloc_parent n hn with h0 | ⟨p, hp, hpar⟩
      · exact Or.inl h0
      · exact Or.inr ⟨p, List.mem_cons_of_mem c hp, hpar⟩
    · exact Or.inr ⟨c, List.mem_cons_self c _, rfl, rfl, rfl⟩
  · exact (hma _).mpr (Or.inl log.start_alloc)
  · intro n hn
    rw [he3] at hn
    rcases List.mem_cons.mp hn with rfl | hn
    · exact hcost
    · exact log.exp_opt n hn
  · intro x hx
    rcases hr3 x hx with hx | ⟨hbx, hvx⟩
    · exact log.reads x hx
    · refine ⟨hbx, fun e => ?_⟩
      rw [e, hstart] at hvx
      simp at hvx

/-- A run of `findPath` with set start and end ends from a state that satisfies both
invariants. -/
theorem findPathRun_endsFrom (pq : PriorityQueue) (grid : Grid) (startPos endPos : Vector2i)
    (useAStar : Bool) (hg : gridOk grid) (hs : inBounds startPos) (he : endPos.x ≠ -1) :
    EndsFrom pq grid startPos endPos useAStar (LogInv grid startPos endPos useAStar)
      (findPathRun pq grid startPos endPos useAStar) := by
  have hsent : ¬ (startPos.x = -1 ∨ endPos.x = -1) := by
    have := hs.1
    omega
  unfold findPathRun
  rw [if_neg hsent]
  apply searchLoop_endsFrom pq grid startPos endPos useAStar hg hs
  · intro st c rest _ log hpop _
    exact log.log_discard rest
      (fun m hm => (pq.pop_perm _ c rest hpop).mem_iff.mp (List.mem_cons_of_mem c hm))
  · intro st c rest st3 inv log hpop _ hb h3 inv3
    exact LogInv.log_expand pq inv log hpop hb h3 inv3
  · exact Inv.initial pq grid startPos endPos useAStar
  · exact LogInv.log_initial pq grid startPos endPos useAStar
  · have hq : (initialState pq startPos endPos).openSet.length = 1 := by
      have := (pq.push_perm [] (startNode startPos endPos)).length_eq
      simpa [initialState] using this
    simp only [measure, hq]
    simp only [initialState, countFalse_initial, searchFuel]
    omega

/-- The final state of a run of `findPath`: either the end was unset and nothing was
allocated, or the final state satisfies the log invariant and a non-empty result is read
off a node that the run created on the end cell. -/
theorem findPathRun_final (pq : PriorityQueue) (grid : Grid) (startPos endPos : Vector2i)
    (useAStar : Bool) (hg : gridOk grid) (hs : inBounds startPos) :
    ∃ p, (findPathRun pq grid startPos endPos useAStar).outcome = .returned p ∧
      ((endPos.x = -1 ∧ p = [] ∧
          (findPathRun pq grid startPos endPos useAStar).final = SearchState.empty) ∨
       (LogInv grid startPos endPos useAStar
          (findPathRun pq grid startPos endPos useAStar).final ∧
        (p = [] ∨ ∃ g ∈ (findPathRun pq grid startPos endPos useAStar).final.allocated,
          g.pos = endPos ∧ p = reconstructPath (some g)))) := by
  by_cases he : endPos.x = -1
  · refine ⟨[], ?_, Or.inl ⟨he, rfl, ?_⟩⟩ <;>
    · unfold findPathRun
      rw [if_pos (Or.inr he)]
  · obtain ⟨stl, _, log, hend⟩ := findPathRun_endsFrom pq grid startPos endPos useAStar hg hs he
    rcases hend with ⟨_, hrun⟩ | ⟨c, rest, hpop, hc, hrun⟩
    · rw [hrun]
      exact ⟨[], rfl, Or.inr ⟨log, Or.inl rfl⟩⟩
    · rw [hrun]
      have hperm := pq.pop_perm _ c rest hpop
      have hcQ : c ∈ stl.openSet := hperm.mem_iff.mp (List.mem_cons_self c rest)
      refine ⟨_, rfl, Or.inr ⟨?_, Or.inr ⟨c, log.open_alloc c hcQ, hc, rfl⟩⟩⟩
      exact log.log_discard rest (fun m hm => hperm.mem_iff.mp (List.mem_cons_of_mem c hm))

/-! ## Further consequences used by the claims -/

theorem isStep_symm {a b : Vector2i} (h : isStep a b) : isStep b a := by
  simp only [isStep] at *
  omega

/-- With every in-bounds neighbour of the end cell blocked, no walk reaches the end cell
from a start cell that is neither the end cell nor next to it. -/
theorem no_walk_to_enclosed (grid : Grid) (startPos endPos : Vector2i)
    (hne : startPos ≠ endPos) (hadj : ¬ isStep startPos endPos)
    (hblocked : ∀ n ∈ neighbors endPos, inBounds n → isBlocked grid n) :
    ∀ l : Nat, ¬ Walk grid startPos l endPos := by
  intro l w
  cases w with
  | here => exact hne rfl
  | step w1 hm =>
    rename_i l1 b
    cases w1 with
    | here => exact hadj hm.1
    | step _ hm1 =>
      have hb := hblocked b ((mem_neighbors_iff _ _).mpr (isStep_symm hm.1)) hm1.2.1
      have hf := hm1.2.2
      unfold isBlocked at hb
      rw [hf] at hb
      simp at hb

theorem heuristic_chain (e : Vector2i) : ∀ (rest : List Vector2i) (a : Vector2i),
    List.Chain isStep a rest →
    heuristic a e ≤ (rest.length : Int)
      + heuristic ((a :: rest).getLast (List.cons_ne_nil a rest)) e := by
  intro rest
  induction rest with
  | nil => intro a _; simp
  | cons b rest ih =>
    intro a h
    rw [List.chain_cons] at h
    have h1 := ih b h.2
    have h2 := heuristic_step a b e h.1
    rw [List.getLast_cons (List.cons_ne_nil b rest)]
    simp only [List.length_cons]
    push_cast
    omega

/-! ## The claims, continued -/

/-- C11, as the code has it. For a well-formed grid, either mode and an in-bounds start
cell that is neither the end cell nor one of its orthogonal neighbours, if every
in-bounds orthogonal neighbour of the end cell is blocked then `findPath` returns the
empty path. -/
theorem findPath_enclosed_goal (pq : PriorityQueue) (grid : Grid) (startPos endPos : Vector2i)
    (useAStar : Bool) (hg : gridOk grid) (hs : inBounds startPos) (hne : startPos ≠ endPos)
    (hadj : ¬ isStep startPos endPos)
    (hblocked : ∀ n ∈ neighbors endPos, inBounds n → isBlocked grid n) :
    findPath pq grid startPos endPos useAStar = .returned [] := by
  obtain ⟨p, hp, hpost⟩ := findPath_spec pq grid startPos endPos useAStar hg hs
  have hno := no_walk_to_enclosed grid startPos endPos hne hadj hblocked
  rcases hpost with ⟨he, _⟩ | ⟨n, hn, hpos, _, _⟩
  · rw [hp, he]
  · obtain ⟨l, _, w⟩ := hn.walk
    rw [hpos] at w
    exact absurd w (hno l)

/-- Instance of the amended C11: the enclosed cell `(1, 0)` as end, the start at `(5, 5)`. -/
theorem findPath_enclosed_goal_witness :
    gridOk enclosedGrid ∧ inBounds ⟨5, 5⟩ ∧ (⟨5, 5⟩ : Vector2i) ≠ ⟨1, 0⟩ ∧
    ¬ isStep ⟨5, 5⟩ ⟨1, 0⟩ ∧
    (∀ n ∈ neighbors ⟨1, 0⟩, inBounds n → isBlocked enclosedGrid n) ∧
    findPath listQueue enclosedGrid ⟨5, 5⟩ ⟨1, 0⟩ true = .returned [] :=
  ⟨by decide, by decide, by decide, by decide, by decide,
    findPath_enclosed_goal listQueue enclosedGrid ⟨5, 5⟩ ⟨1, 0⟩ true (by decide) (by decide)
      (by decide) (by decide) (by decide)⟩

/-- C11 as stated fails. On a well-formed grid where `(0, 0)`, `(2, 0)` and `(1, 1)` are
blocked, every in-bounds neighbour of the end cell `(1, 0)` is blocked, the start cell
`(0, 0)` is in bounds and differs from the end cell, and yet `findPath` in heuristic mode
returns the path `(0, 0), (1, 0)`: the start cell is itself one of the blocked
neighbours. -/
theorem findPath_enclosed_goal_counterexample :
    gridOk enclosedGrid ∧ inBounds ⟨0, 0⟩ ∧ inBounds ⟨1, 0⟩ ∧
    (⟨0, 0⟩ : Vector2i) ≠ ⟨1, 0⟩ ∧
    (∀ n ∈ neighbors ⟨1, 0⟩, inBounds n → isBlocked enclosedGrid n) ∧
    findPath listQueue enclosedGrid ⟨0, 0⟩ ⟨1, 0⟩ true = .returned [⟨0, 0⟩, ⟨1, 0⟩] := by
  decide

/-- C12 (termination). For a well-formed grid, an in-bounds start cell, any end cell and
either mode, `findPath` returns a path (the fuel of the loop is never used up and
`reconstructPath` is a total function), no cell is expanded twice, at most
`GRID_WIDTH * GRID_HEIGHT` nodes are expanded and at most
`1 + 4 * GRID_WIDTH * GRID_HEIGHT` nodes are created and pushed. -/
theorem findPath_terminates (pq : PriorityQueue) (grid : Grid) (startPos endPos : Vector2i)
    (useAStar : Bool) (hg : gridOk grid) (hs : inBounds startPos) :
    (∃ p, findPath pq grid startPos endPos useAStar = .returned p) ∧
    ((findPathRun pq grid startPos endPos useAStar).final.expanded.map Node.pos).Nodup ∧
    ((findPathRun pq grid startPos endPos useAStar).final.expanded.length : Int)
      ≤ GRID_WIDTH * GRID_HEIGHT ∧
    ((findPathRun pq grid startPos endPos useAStar).final.allocated.length : Int)
      ≤ 1 + 4 * GRID_WIDTH * GRID_HEIGHT := by
  obtain ⟨p, hp, hfin⟩ := findPathRun_final pq grid startPos endPos useAStar hg hs
  refine ⟨⟨p, hp⟩, ?_⟩
  rcases hfin with ⟨_, _, hempty⟩ | ⟨log, _⟩
  · rw [hempty]
    simp [SearchState.empty, GRID_WIDTH, GRID_HEIGHT]
  · have h15 : GRID_HEIGHT.toNat * GRID_WIDTH.toNat = 225 := by decide
    have h1 := log.exp_count
    have h2 := log.alloc_count
    rw [h15] at h1
    refine ⟨log.exp_nodup, ?_, ?_⟩
    · simp only [GRID_WIDTH, GRID_HEIGHT]
      omega
    · simp only [GRID_WIDTH, GRID_HEIGHT]
      omega

/-- Instance of C12 on the grid with a wall cell, with an end cell outside the grid. -/
theorem findPath_terminates_witness :
    gridOk wallGrid ∧ inBounds ⟨0, 0⟩ ∧
    (∃ p, findPath listQueue wallGrid ⟨0, 0⟩ ⟨20, 3⟩ true = .returned p) ∧
    ((findPathRun listQueue wallGrid ⟨0, 0⟩ ⟨20, 3⟩ true).final.expanded.map Node.pos).Nodup ∧
    ((findPathRun listQueue wallGrid ⟨0, 0⟩ ⟨20, 3⟩ true).final.expanded.length : Int)
      ≤ GRID_WIDTH * GRID_HEIGHT ∧
    ((findPathRun listQueue wallGrid ⟨0, 0⟩ ⟨20, 3⟩ true).final.allocated.length : Int)
      ≤ 1 + 4 * GRID_WIDTH * GRID_HEIGHT :=
  ⟨by decide, by decide,
    findPath_terminates listQueue wallGrid ⟨0, 0⟩ ⟨20, 3⟩ true (by decide) (by decide)⟩

/-- C13 (the heuristic). For all cells `a`, `b`, `e`: `heuristic a e` is the Manhattan
distance `|a.x - e.x| + |a.y - e.y|`; `heuristic e e = 0`; `heuristic a e` is at most
`1 + heuristic b e` when `a` and `b` are orthogonally adjacent; and `heuristic a e` is at
most the number of steps of any sequence of orthogonal unit steps from `a` to `e`. -/
theorem heuristic_manhattan (a b e : Vector2i) :
    heuristic a e = |a.x - e.x| + |a.y - e.y| ∧
    heuristic e e = 0 ∧
    (isStep a b → heuristic a e ≤ 1 + heuristic b e) ∧
    (∀ w : List Vector2i, List.Chain' isStep w → w.head? = some a → w.getLast? = some e →
      heuristic a e ≤ (w.length : Int) - 1) := by
  refine ⟨?_, heuristic_self e, heuristic_step a b e, ?_⟩
  · simp only [heuristic, Int.natCast_natAbs]
  · intro w hc hh hl
    cases w with
    | nil => simp at hh
    | cons c rest =>
      simp only [List.head?_cons, Option.some.injEq] at hh
      subst hh
      have h1 := heuristic_chain e rest c hc
      rw [List.getLast?_eq_getLast _ (List.cons_ne_nil c rest)] at hl
      simp only [Option.some.injEq] at hl
      rw [hl, heuristic_self] at h1
      simp only [List.length_cons]
      push_cast
      omega

/-- Instance of C13 at `a = (0, 0)`, `b = (1, 0)`, `e = (3, 4)`. -/
theorem heuristic_manhattan_witness :
    heuristic ⟨0, 0⟩ ⟨3, 4⟩ = |(0 : Int) - 3| + |(0 : Int) - 4| ∧
    heuristic ⟨3, 4⟩ ⟨3, 4⟩ = 0 ∧
    (isStep ⟨0, 0⟩ ⟨1, 0⟩ → heuristic ⟨0, 0⟩ ⟨3, 4⟩ ≤ 1 + heuristic ⟨1, 0⟩ ⟨3, 4⟩) ∧
    (∀ w : List Vector2i, List.Chain' isStep w → w.head? = some ⟨0, 0⟩ →
      w.getLast? = some ⟨3, 4⟩ → heuristic ⟨0, 0⟩ ⟨3, 4⟩ ≤ (w.length : Int) - 1) :=
  heuristic_manhattan ⟨0, 0⟩ ⟨1, 0⟩ ⟨3, 4⟩

/-- C14 fails on the start node. On the all-free grid with start `(0, 0)`, end `(2, 1)`
and `useAStar = false`, the run creates a node on the start cell without parent whose
heuristic field is `3`, the Manhattan distance to the end cell, so that its `totalCost`
differs from its `cost`. -/
theorem findPath_uniform_start_heuristic :
    ∃ n ∈ (findPathRun listQueue freeGrid ⟨0, 0⟩ ⟨2, 1⟩ false).final.allocated,
      n.pos = ⟨0, 0⟩ ∧ n.parent.isNone = true ∧ n.heuristic = 3 ∧ n.totalCost ≠ n.cost := by
  decide

/-- The part of C14 that holds: with `useAStar = false` every node that a run creates,
other than the start node, has heuristic field `0` and `totalCost` equal to `cost`. The
start node is created whenever start and end are set, and it carries
`heuristic startPos endPos` whatever the mode. -/
theorem findPath_uniform_successor_heuristic (pq : PriorityQueue) (grid : Grid)
    (startPos endPos : Vector2i) (hg : gridOk grid) (hs : inBounds startPos) :
    (∀ n ∈ (findPathRun pq grid startPos endPos false).final.allocated,
      n = startNode startPos endPos ∨ (n.heuristic = 0 ∧ n.totalCost = n.cost)) ∧
    (endPos.x ≠ -1 →
      startNode startPos endPos ∈ (findPathRun pq grid startPos endPos false).final.allocated) ∧
    (startNode startPos endPos).heuristic = heuristic startPos endPos := by
  obtain ⟨p, _, hfin⟩ := findPathRun_final pq grid startPos endPos false hg hs
  refine ⟨fun n hn => ?_, fun he => ?_, rfl⟩
  · rcases hfin with ⟨_, _, hempty⟩ | ⟨log, _⟩
    · rw [hempty] at hn
      simp [SearchState.empty] at hn
    · rcases log.alloc_parent n hn with h0 | ⟨q, _, _, _, hh⟩
      · exact Or.inl h0
      · have h0 : n.heuristic = 0 := by simpa [keyH] using hh
        exact Or.inr ⟨h0, by simp [Node.totalCost, h0]⟩
  · rcases hfin with ⟨hx, _, _⟩ | ⟨log, _⟩
    · exact absurd hx he
    · exact log.start_alloc

/-- C15 (first finalization is optimal). For a well-formed grid, an in-bounds start cell
and either mode, every node that the loop popped on a not yet visited cell and expanded
has a cost equal to the least number of moves from the start to its cell: its own parent
chain is a route of `cost + 1` cells, and every route from the start to its cell has at
least `cost + 1` cells. Consequently every node that the run created on the same cell,
in particular one popped later and discarded, costs at least as much. -/
theorem findPath_first_finalization_optimal (pq : PriorityQueue) (grid : Grid)
    (startPos endPos : Vector2i) (useAStar : Bool) (hg : gridOk grid)
    (hs : inBounds startPos) :
    ∀ e ∈ (findPathRun pq grid startPos endPos useAStar).final.expanded,
      (isRoute grid startPos e.pos (reconstructPath (some e)) ∧
        ((reconstructPath (some e)).length : Int) = e.cost + 1) ∧
      (∀ q, isRoute grid startPos e.pos q → e.cost + 1 ≤ (q.length : Int)) ∧
      (∀ d ∈ (findPathRun pq grid startPos endPos useAStar).final.allocated,
        d.pos = e.pos → e.cost ≤ d.cost) := by
  intro e he
  obtain ⟨p, _, hfin⟩ := findPathRun_final pq grid startPos endPos useAStar hg hs
  rcases hfin with ⟨_, _, hempty⟩ | ⟨log, _⟩
  · rw [hempty] at he
    simp [SearchState.empty] at he
  · have hr := log.alloc_rooted e (log.exp_alloc e he)
    refine ⟨⟨hr.route, hr.path_length⟩, fun q hq => ?_, fun d hd hpos => ?_⟩
    · obtain ⟨l, hl, w⟩ := Walk.of_route grid startPos e.pos q hq
      have := log.exp_opt e he l w
      omega
    · obtain ⟨l, hl, w⟩ := (log.alloc_rooted d hd).walk
      rw [hpos] at w
      have := log.exp_opt e he l w
      omega

/-- Instance of C15 on the grid with a wall cell, in heuristic mode. -/
theorem findPath_first_finalization_optimal_witness :
    gridOk wallGrid ∧ inBounds ⟨0, 0⟩ ∧
    ∀ e ∈ (findPathRun listQueue wallGrid ⟨0, 0⟩ ⟨2, 0⟩ true).final.expanded,
      (isRoute wallGrid ⟨0, 0⟩ e.pos (reconstructPath (some e)) ∧
        ((reconstructPath (some e)).length : Int) = e.cost + 1) ∧
      (∀ q, isRoute wallGrid ⟨0, 0⟩ e.pos q → e.cost + 1 ≤ (q.length : Int)) ∧
      (∀ d ∈ (findPathRun listQueue wallGrid ⟨0, 0⟩ ⟨2, 0⟩ true).final.allocated,
        d.pos = e.pos → e.cost ≤ d.cost) :=
  ⟨by decide, by decide,
    findPath_first_finalization_optimal listQueue wallGrid ⟨0, 0⟩ ⟨2, 0⟩ true (by decide)
      (by decide)⟩

/-- C16 (the predecessor chain is a cost-decreasing tree). For a well-formed grid, an
in-bounds start cell and either mode: every node that the run created is the start node
or has a parent that was expanded, whose cell is marked visited and whose cost is one
less; the start node has cost `0` and no parent; the chain of every created node repeats
no cell, ends on the start cell and has `cost + 1` cells; and a non-empty returned path
is read off a created node on the end cell and has that node's `cost + 1` cells. -/
theorem findPath_parent_tree (pq : PriorityQueue) (grid : Grid) (startPos endPos : Vector2i)
    (useAStar : Bool) (hg : gridOk grid) (hs : inBounds startPos) :
    (∀ n ∈ (findPathRun pq grid startPos endPos useAStar).final.allocated,
      n = startNode startPos endPos ∨
      ∃ q ∈ (findPathRun pq grid startPos endPos useAStar).final.expanded,
        n.parent = some q ∧ n.cost = q.cost + 1 ∧
        readAt (findPathRun pq grid startPos endPos useAStar).final.visited q.pos
          = some true) ∧
    ((startNode startPos endPos).cost = 0 ∧ (startNode startPos endPos).parent = none) ∧
    (∀ n ∈ (findPathRun pq grid startPos endPos useAStar).final.allocated,
      n.chain.Nodup ∧ n.chain.getLast? = some startPos ∧
      (n.chain.length : Int) = n.cost + 1) ∧
    ∃ p, findPath pq grid startPos endPos useAStar = .returned p ∧
      (p ≠ [] → ∃ g ∈ (findPathRun pq grid startPos endPos useAStar).final.allocated,
        g.pos = endPos ∧ p = reconstructPath (some g) ∧ (p.length : Int) = g.cost + 1) := by
  obtain ⟨p, hp, hfin⟩ := findPathRun_final pq grid startPos endPos useAStar hg hs
  rcases hfin with ⟨_, hnil, hempty⟩ | ⟨log, hgoal⟩
  · refine ⟨?_, ⟨rfl, rfl⟩, ?_, p, hp, fun hne => absurd hnil hne⟩
    · intro n hn; rw [hempty] at hn; simp [SearchState.empty] at hn
    · intro n hn; rw [hempty] at hn; simp [SearchState.empty] at hn
  · refine ⟨fun n hn => ?_, ⟨rfl, rfl⟩, fun n hn => ?_, p, hp, fun hne => ?_⟩
    · rcases log.alloc_parent n hn with h0 | ⟨q, hq, hpar, hcost, _⟩
      · exact Or.inl h0
      · exact Or.inr ⟨q, hq, hpar, hcost, log.exp_visited q hq⟩
    · have hr := log.alloc_rooted n hn
      exact ⟨hr.chain_nodup, hr.chain_getLast, hr.chain_length⟩
    · rcases hgoal with hnil | ⟨g, hg1, hpos, hpg⟩
      · exact absurd hnil hne
      · refine ⟨g, hg1, hpos, hpg, ?_⟩
        rw [hpg]
        exact (log.alloc_rooted g hg1).path_length

/-- Instance of C16 on the grid with a wall cell, in uniform-cost mode. -/
theorem findPath_parent_tree_witness :
    gridOk wallGrid ∧ inBounds ⟨0, 0⟩ ∧
    (∀ n ∈ (findPathRun listQueue wallGrid ⟨0, 0⟩ ⟨2, 0⟩ false).final.allocated,
      n = startNode ⟨0, 0⟩ ⟨2, 0⟩ ∨
      ∃ q ∈ (findPathRun listQueue wallGrid ⟨0, 0⟩ ⟨2, 0⟩ false).final.expanded,
        n.parent = some q ∧ n.cost = q.cost + 1 ∧
        readAt (findPathRun listQueue wallGrid ⟨0, 0⟩ ⟨2, 0⟩ false).final.visited q.pos
          = some true) ∧
    ((startNode ⟨0, 0⟩ ⟨2, 0⟩).cost = 0 ∧ (startNode ⟨0, 0⟩ ⟨2, 0⟩).parent = none) ∧
    (∀ n ∈ (findPathRun listQueue wallGrid ⟨0, 0⟩ ⟨2, 0⟩ false).final.allocated,
      n.chain.Nodup ∧ n.chain.getLast? = some ⟨0, 0⟩ ∧
      (n.chain.length : Int) = n.cost + 1) ∧
    ∃ p, findPath listQueue wallGrid ⟨0, 0⟩ ⟨2, 0⟩ false = .returned p ∧
      (p ≠ [] → ∃ g ∈ (findPathRun listQueue wallGrid ⟨0, 0⟩ ⟨2, 0⟩ false).final.allocated,
        g.pos = ⟨2, 0⟩ ∧ p = reconstructPath (some g) ∧ (p.length : Int) = g.cost + 1) :=
  ⟨by decide, by decide,
    findPath_parent_tree listQueue wallGrid ⟨0, 0⟩ ⟨2, 0⟩ false (by decide) (by decide)⟩

/-- C17 (index safety). For a grid of `GRID_HEIGHT` rows of `GRID_WIDTH` cells, an
in-bounds start cell, any end cell and either mode, `findPath` never indexes `grid` or
`visited` outside their sizes: the run does not end in `outOfRange`, every node it
created (the only cells at which `visited` is indexed outside the bounds test) lies in
bounds, and so does every cell at which `grid` was read. -/
theorem findPath_index_safe (pq : PriorityQueue) (grid : Grid) (startPos endPos : Vector2i)
    (useAStar : Bool) (hg : gridOk grid) (hs : inBounds startPos) :
    findPath pq grid startPos endPos useAStar ≠ .outOfRange ∧
    (∀ n ∈ (findPathRun pq grid startPos endPos useAStar).final.allocated, inBounds n.pos) ∧
    (∀ c ∈ (findPathRun pq grid startPos endPos useAStar).final.gridReads, inBounds c) := by
  obtain ⟨p, hp, hfin⟩ := findPathRun_final pq grid startPos endPos useAStar hg hs
  refine ⟨?_, ?_, ?_⟩
  · unfold findPath
    rw [hp]
    exact fun h => Outcome.noConfusion h
  · intro n hn
    rcases hfin with ⟨_, _, hempty⟩ | ⟨log, _⟩
    · rw [hempty] at hn; simp [SearchState.empty] at hn
    · exact (log.alloc_rooted n hn).inBounds hs
  · intro c hc
    rcases hfin with ⟨_, _, hempty⟩ | ⟨log, _⟩
    · rw [hempty] at hc; simp [SearchState.empty] at hc
    · exact (log.reads c hc).1

/-- Instance of C17 with the end cell far outside the grid. -/
theorem findPath_index_safe_witness :
    gridOk wallGrid ∧ inBounds ⟨14, 14⟩ ∧
    findPath listQueue wallGrid ⟨14, 14⟩ ⟨-7, 100⟩ false ≠ .outOfRange ∧
    (∀ n ∈ (findPathRun listQueue wallGrid ⟨14, 14⟩ ⟨-7, 100⟩ false).final.allocated,
      inBounds n.pos) ∧
    (∀ c ∈ (findPathRun listQueue wallGrid ⟨14, 14⟩ ⟨-7, 100⟩ false).final.gridReads,
      inBounds c) :=
  ⟨by decide, by decide,
    findPath_index_safe listQueue wallGrid ⟨14, 14⟩ ⟨-7, 100⟩ false (by decide) (by decide)⟩

/-- C18 (only the start cell escapes the admissibility check). For a well-formed grid,
an in-bounds start cell, any end cell and either mode, `findPath` returns a path whose
cells after the first are all in bounds with grid value `0`, and the run never reads
the grid entry of the start cell. -/
theorem findPath_start_unchecked (pq : PriorityQueue) (grid : Grid)
    (startPos endPos : Vector2i) (useAStar : Bool) (hg : gridOk grid)
    (hs : inBounds startPos) :
    (∃ p, findPath pq grid startPos endPos useAStar = .returned p ∧
      ∀ c ∈ p.tail, inBounds c ∧ readAt grid c = some 0) ∧
    startPos ∉ (findPathRun pq grid startPos endPos useAStar).final.gridReads := by
  constructor
  · obtain ⟨p, hp, hpost⟩ := findPath_spec pq grid startPos endPos useAStar hg hs
    refine ⟨p, hp, fun c hc => ?_⟩
    by_cases hne : p = []
    · rw [hne] at hc; simp at hc
    · exact chain_tail_free grid p (hpost.route_of_ne_nil hne).1.2.2 c hc
  · intro hmem
    obtain ⟨p, _, hfin⟩ := findPathRun_final pq grid startPos endPos useAStar hg hs
    rcases hfin with ⟨_, _, hempty⟩ | ⟨log, _⟩
    · rw [hempty] at hmem; simp [SearchState.empty] at hmem
    · exact (log.reads startPos hmem).2 rfl

/-- Instance of C18 with the start on the blocked corner cell. -/
theorem findPath_start_unchecked_witness :
    gridOk cornerBlockedGrid ∧ inBounds ⟨0, 0⟩ ∧
    (∃ p, findPath listQueue cornerBlockedGrid ⟨0, 0⟩ ⟨2, 2⟩ true = .returned p ∧
      ∀ c ∈ p.tail, inBounds c ∧ readAt cornerBlockedGrid c = some 0) ∧
    (⟨0, 0⟩ : Vector2i) ∉
      (findPathRun listQueue cornerBlockedGrid ⟨0, 0⟩ ⟨2, 2⟩ true).final.gridReads :=
  ⟨by decide, by decide,
    findPath_start_unchecked listQueue cornerBlockedGrid ⟨0, 0⟩ ⟨2, 2⟩ true (by decide)
      (by decide)⟩

end PathFinder
